import Mathlib

/-!
A shallow embedding of the vaultboy configuration converter (vaultboy.go)
and a verification of its specified properties.

Modelling conventions:
* Go strings are modelled as `List Char` (`Str`); the inputs of interest are
  ASCII, and Go's byte-wise string comparison agrees with `Char` comparison.
* Go's `map[string]interface{}` is modelled as an association list that is
  kept sorted by key (`insertA` inserts at the sorted position).  Go maps are
  unordered, so keeping the representative sorted makes Go map equality
  coincide with list equality.  Where the Go code ranges over a map in an
  unspecified order, the model takes an explicit entry list, so iteration
  order can be quantified over.
* Go `interface{}` document values are the inductive `Val`; the untyped `nil`
  is `Val.vnull`.
* A Go runtime panic (failed type assertion, negative slice index) is
  modelled as `none` in an `Option` result.
-/

set_option maxRecDepth 4000

namespace Vaultboy

/-- Go strings, as lists of characters. -/
abbrev Str := List Char

/-- Document values: the `interface{}` data model produced by the JSON/YAML
decoders (scalars, `[]interface{}` lists, `map[string]interface{}` maps). -/
inductive Val where
  | vnull
  | vstr (s : Str)
  | vint (n : Int)
  | vbool (b : Bool)
  | vlist (xs : List Val)
  | vmap (m : List (Str × Val))
deriving Repr

/-- A `map[string]interface{}`, as a key-sorted association list. -/
abbrev M := List (Str × Val)

/-- Byte-wise (here: character-wise) lexicographic order on strings, as used
by Go's `sort.Strings`. -/
def strLt : Str → Str → Bool
  | [], [] => false
  | [], _ :: _ => true
  | _ :: _, [] => false
  | a :: as, b :: bs => if a < b then true else if b < a then false else strLt as bs

/-- Go map read `m[k]` (with presence flag): first matching key. -/
def lookupA (k : Str) : M → Option Val
  | [] => none
  | (k2, v2) :: rest => if k = k2 then some v2 else lookupA k rest

/-- Go map write `m[k] = v`, on the sorted-association-list representative:
replaces an existing binding, otherwise inserts at the sorted position. -/
def insertA (k : Str) (v : Val) : M → M
  | [] => [(k, v)]
  | (k2, v2) :: rest =>
    if k = k2 then (k, v) :: rest
    else if strLt k k2 then (k, v) :: (k2, v2) :: rest
    else (k2, v2) :: insertA k v rest

/-- `strings.Split(s, ".")`: split at every dot; `n` dots give `n+1` pieces. -/
def splitDot : Str → List Str
  | [] => [[]]
  | c :: rest =>
    match splitDot rest with
    | [] => [[c]]
    | p :: ps => if c = '.' then [] :: p :: ps else (c :: p) :: ps

/-- Index of the last occurrence of `c` (Go `strings.LastIndex`), if any. -/
def lastIdxOf (c : Char) : Str → Option Nat
  | [] => none
  | x :: xs =>
    match lastIdxOf c xs with
    | some i => some (i + 1)
    | none => if x = c then some 0 else none

/-- Decimal digit run accumulator for `strconv.Atoi`: `some` iff the string
is a non-empty run of ASCII digits. -/
def digitsVal (acc : Nat) : Str → Option Nat
  | [] => some acc
  | c :: rest =>
    if c.isDigit then digitsVal (acc * 10 + (c.toNat - '0'.toNat)) rest
    else none

/-- `strconv.Atoi`: optional sign, then a non-empty digit run, and the value
must fit in a signed 64-bit int (out-of-range input is an error). -/
def atoi (s : Str) : Option Int :=
  let signed : Bool × Str :=
    match s with
    | '-' :: r => (true, r)
    | '+' :: r => (false, r)
    | r => (false, r)
  match signed.2 with
  | [] => none
  | ds =>
    match digitsVal 0 ds with
    | none => none
    | some n =>
      let v : Int := if signed.1 then -(n : Int) else (n : Int)
      if -(2 ^ 63) ≤ v ∧ v < 2 ^ 63 then some v else none

/-- `parseArrayKey` (vaultboy.go:259): if the segment ends in a bracketed
integer index, strip it; otherwise return the segment unchanged with
index `-1` and `false`. -/
def parseArrayKey (key : Str) : Str × Int × Bool :=
  if key.getLast? = some ']' then
    match lastIdxOf '[' key with
    | some b =>
      let idxStr := (key.drop (b + 1)).dropLast
      match atoi idxStr with
      | some idx => (key.take b, idx, true)
      | none => (key, -1, false)
    | none => (key, -1, false)
  else (key, -1, false)

/-- `fmt.Sprintf("%d", i)` for the loop index of `flatten`. -/
def natToStr (n : Nat) : Str := Nat.toDigits 10 n

/-- The flat key for element `i` of the list at `key`:
`fmt.Sprintf("%s[%d]", key, i)`. -/
def indexKey (key : Str) (i : Nat) : Str := key ++ '[' :: natToStr i ++ [']']

/-- `prefix + "." + k`, or just `k` when the prefix is empty. -/
def joinKey (pre k : Str) : Str := if pre = [] then k else pre ++ '.' :: k

mutual
/-- `flatten` (vaultboy.go:143): walk the entries of a nested map, adding
flat bindings to `out`.  The Go signature is `flatten(prefix, in, out)`; the
entry list comes first here so that the recursion is structural on it (the
Go loop ranges over a map in unspecified order; the model processes the
given entry list left to right). -/
def flatten : M → Str → M → M
  | [], _, out => out
  | (k, v) :: rest, pre, out => flatten rest pre (flattenVal v (joinKey pre k) out)

/-- One iteration of the `flatten` loop body: the `switch` on the value. -/
def flattenVal : Val → Str → M → M
  | .vmap mp, key, out => flatten mp key out
  | .vlist xs, key, out => flattenItems xs key 0 out
  | v, key, out => insertA key v out

/-- The inner loop of `flatten` over the elements of a list value
(`i` is the element position). -/
def flattenItems : List Val → Str → Nat → M → M
  | [], _, _, out => out
  | item :: rest, key, i, out =>
    match item with
    | .vmap mp => flattenItems rest key (i + 1) (flatten mp (indexKey key i) out)
    | v => flattenItems rest key (i + 1) (insertA (indexKey key i) v out)
end

/-- The `for len(arr) <= idx { arr = append(arr, nil) }` loop of `unflatten`:
null-pad the list until its length exceeds `idx` (no-op for negative `idx`). -/
def padTo (arr : List Val) (idx : Int) : List Val :=
  if idx < 0 then arr
  else arr ++ List.replicate (idx.toNat + 1 - arr.length) Val.vnull

/-- `arr, _ = existing.([]interface{})`: an absent key or a non-list value
both leave `arr` nil. -/
def ensureArr (existing : Option Val) : List Val :=
  match existing with
  | some (.vlist xs) => xs
  | _ => []

/-- The inner loop of `unflatten` (vaultboy.go:217) over the dot-separated
parts of one flat key, threading the current map.  `none` models a Go
runtime panic (failed `.(map[string]interface{})` assertion, or a negative
array index). -/
def putPath (parts : List Str) (value : Val) (m : M) : Option M :=
  match parts with
  | [] => some m
  | seg :: rest =>
    match parseArrayKey seg with
    | (key, idx, isArr) =>
      if isArr then
        let arr := padTo (ensureArr (lookupA key m)) idx
        if 0 ≤ idx then
          if rest = [] then
            some (insertA key (.vlist (arr.set idx.toNat value)) m)
          else
            match arr[idx.toNat]? with
            | some .vnull =>
              (putPath rest value []).map
                (fun inner => insertA key (.vlist (arr.set idx.toNat (.vmap inner))) m)
            | some (.vmap inner) =>
              (putPath rest value inner).map
                (fun r => insertA key (.vlist (arr.set idx.toNat (.vmap r))) m)
            | _ => none
        else none
      else
        if rest = [] then some (insertA key value m)
        else
          match lookupA key m with
          | none => (putPath rest value []).map (fun inner => insertA key (.vmap inner) m)
          | some (.vmap inner) => (putPath rest value inner).map (fun r => insertA key (.vmap r) m)
          | some _ => putPath rest value m

/-- One iteration of the outer `unflatten` loop: process one flat entry. -/
def unflattenStep (acc : Option M) (e : Str × Val) : Option M :=
  acc.bind (putPath (splitDot e.1) e.2)

/-- `unflatten` (vaultboy.go:210), over an explicit entry list (the Go loop
ranges over the map in unspecified order). -/
def unflatten (entries : List (Str × Val)) : Option M :=
  entries.foldl unflattenStep (some [])

/-- The inner merge loop of `runNormal`: `for k, v := range parsed { flat[k] = v }`. -/
def foldIns (parsed : M) (flat : M) : M :=
  parsed.foldl (fun f kv => insertA kv.1 kv.2 f) flat

/-- The merge loop of `runNormal` (vaultboy.go:43): fold the parsed input
mappings, in command-line order, into one accumulator with `flat[k] = v`. -/
def mergeParsed (ms : List M) : M :=
  ms.foldl (fun flat parsed => foldIns parsed flat) []

/-- The value the merged mapping should hold at `k` according to the spec:
the value from the last input mapping that contains `k`. -/
def lastLook (ms : List M) (k : Str) : Option Val :=
  match ms with
  | [] => none
  | m :: rest => (lastLook rest k).or (lookupA k m)

/-- `strings.ToLower`, character-wise. -/
def toLowerStr (s : Str) : Str := s.map Char.toLower

/-- The backwards scan of `filepath.Ext`: stop at a path separator, return
from the last dot (inclusive) to the end. -/
def extAux : Str → Str → Str
  | [], _ => []
  | c :: restRev, acc =>
    if c = '/' then []
    else if c = '.' then c :: acc
    else extAux restRev (c :: acc)

/-- `filepath.Ext(path)`. -/
def extOf (path : Str) : Str := extAux path.reverse []

/-- Which serializer `runReverse` invokes, and with which data. -/
inductive SerializerCall where
  | envCall (data : M)
  | yamlCall (nested : M)
deriving Repr

/-- The dispatch of `runReverse` (vaultboy.go:63): the parsed flat JSON is
handed to `writeEnv` as-is for a `.env` output, unflattened for a
`.yaml`/`.yml` output, and any other extension is a fatal error (`none`). -/
def runReverse (data : M) (outputPath : Str) : Option SerializerCall :=
  let e := toLowerStr (extOf outputPath)
  if e = ".env".toList then some (.envCall data)
  else if e = ".yaml".toList ∨ e = ".yml".toList then (unflatten data).map .yamlCall
  else none

/-- Go `unicode.IsSpace`, restricted to ASCII. -/
def isSpaceC (c : Char) : Bool :=
  c = ' ' ∨ c = '\t' ∨ c = '\n' ∨ c = '\r' ∨ c = Char.ofNat 11 ∨ c = Char.ofNat 12

/-- `strings.TrimSpace`. -/
def trimSpace (s : Str) : Str :=
  ((s.dropWhile isSpaceC).reverse.dropWhile isSpaceC).reverse

/-- The cutset `"'` of the value trim in `parseEnvFile`. -/
def isQuoteC (c : Char) : Bool := c = '"' ∨ c = Char.ofNat 39

/-- `strings.Trim(s, quoteCutset)`. -/
def trimQuotes (s : Str) : Str :=
  ((s.dropWhile isQuoteC).reverse.dropWhile isQuoteC).reverse

/-- `strings.SplitN(line, "=", 2)`, keeping only the two-part outcome:
`some (before, after)` at the first `=`, `none` when no `=` occurs (in which
case `SplitN` returns one part and `parseEnvFile` skips the line). -/
def splitEq : Str → Option (Str × Str)
  | [] => none
  | c :: rest =>
    if c = '=' then some ([], rest)
    else (splitEq rest).map (fun p => (c :: p.1, p.2))

/-- One iteration of the `parseEnvFile` scanner loop (vaultboy.go:115). -/
def parseEnvLine (result : M) (rawLine : Str) : M :=
  let line := trimSpace rawLine
  if line = [] then result
  else if line.head? = some '#' then result
  else
    match splitEq line with
    | none => result
    | some (k, v) => insertA (trimSpace k) (.vstr (trimQuotes (trimSpace v))) result

/-- The pure core of `parseEnvFile`: fold the scanner loop over the lines. -/
def parseEnvLines (lines : List Str) : M := lines.foldl parseEnvLine []

/-- Scalar document values: neither a list nor a map. -/
def isScalar : Val → Bool
  | .vlist _ => false
  | .vmap _ => false
  | _ => true

/-- The decoded form of one flat key: its dot-separated segments, each run
through `parseArrayKey`. -/
def decodeKey (k : Str) : List (Str × Int × Bool) := (splitDot k).map parseArrayKey

/-- `putPath` on already-decoded segments (`putPath` applies `parseArrayKey`
to each raw segment and then branches only on the decoded triple). -/
def putPathD : List (Str × Int × Bool) → Val → M → Option M
  | [], _, m => some m
  | (key, idx, isArr) :: rest, value, m =>
    if isArr then
      let arr := padTo (ensureArr (lookupA key m)) idx
      if 0 ≤ idx then
        if rest = [] then
          some (insertA key (.vlist (arr.set idx.toNat value)) m)
        else
          match arr[idx.toNat]? with
          | some .vnull =>
            (putPathD rest value []).map
              (fun inner => insertA key (.vlist (arr.set idx.toNat (.vmap inner))) m)
          | some (.vmap inner) =>
            (putPathD rest value inner).map
              (fun r => insertA key (.vlist (arr.set idx.toNat (.vmap r))) m)
          | _ => none
      else none
    else
      if rest = [] then some (insertA key value m)
      else
        match lookupA key m with
        | none => (putPathD rest value []).map (fun inner => insertA key (.vmap inner) m)
        | some (.vmap inner) => (putPathD rest value inner).map (fun r => insertA key (.vmap r) m)
        | some _ => putPathD rest value m

/-- A decoded segment is well formed when an array segment carries a
non-negative index (a negative index always panics at runtime). -/
def segWF : Str × Int × Bool → Bool
  | (_, idx, isArr) => !isArr || decide (0 ≤ idx)

/-- All segments of a decoded path are well formed. -/
def segsWF (p : List (Str × Int × Bool)) : Bool := p.all segWF

/-- Structural compatibility of two decoded paths: walking both from the
root, either they part at a segment with different names, or at two array
segments of the same name with different indices; paths that stay together
to the end of either one (a shared prefix where one entry stores its value
while the other wants to descend, or two aliases of the same location) are
incompatible, as are a Mapping and a List expectation for the same name. -/
def segsCompat : List (Str × Int × Bool) → List (Str × Int × Bool) → Bool
  | [], _ => false
  | _ :: _, [] => false
  | (n1, i1, a1) :: r1, (n2, i2, a2) :: r2 =>
    if n1 = n2 then
      if a1 = a2 then
        if a1 = true ∧ ¬ i1 = i2 then true
        else segsCompat r1 r2
      else false
    else true

/-- Compatibility of two flat entries, via their decoded keys. -/
def entriesCompat (e1 e2 : Str × Val) : Bool :=
  segsCompat (decodeKey e1.1) (decodeKey e2.1)

/-- The tree `m` does not derail the decoded path: every non-terminal
segment finds (or can create) a Mapping to descend into. -/
def pathOK : List (Str × Int × Bool) → M → Bool
  | [], _ => true
  | (key, idx, isArr) :: rest, m =>
    if isArr then
      if rest = [] then true
      else
        match (padTo (ensureArr (lookupA key m)) idx)[idx.toNat]? with
        | some .vnull => pathOK rest []
        | some (.vmap inner) => pathOK rest inner
        | _ => false
    else
      if rest = [] then true
      else
        match lookupA key m with
        | none => pathOK rest []
        | some (.vmap inner) => pathOK rest inner
        | some _ => false

/-- Invariant carried through the `unflatten` fold: the accumulated state
(if it has not already panicked) does not derail any remaining entry. -/
def stateOK (s : Option M) (l : List (Str × Val)) : Prop :=
  ∀ m, s = some m → ∀ e ∈ l, pathOK (decodeKey e.1) m = true

/-- Observation used to tell concrete maps apart: is `k` bound? -/
def keyPresent (k : Str) : Option M → Bool
  | some m => (lookupA k m).isSome
  | none => false

/-- Observation on a serializer call: is `k` bound in the data handed over? -/
def callKeyPresent (k : Str) : Option SerializerCall → Bool
  | some (.envCall m) => (lookupA k m).isSome
  | some (.yamlCall m) => (lookupA k m).isSome
  | none => false

/-! ## General lemmas about the helper operations -/

theorem padTo_length (arr : List Val) (idx : Int) (h : 0 ≤ idx) :
    (padTo arr idx).length = max arr.length (idx.toNat + 1) := by
  unfold padTo
  rw [if_neg (by omega)]
  simp only [List.length_append, List.length_replicate]
  omega

theorem padTo_toNat_lt (arr : List Val) (idx : Int) (h : 0 ≤ idx) :
    idx.toNat < (padTo arr idx).length := by
  rw [padTo_length arr idx h]
  omega

theorem splitEq_eq_none {l : Str} (h : '=' ∉ l) : splitEq l = none := by
  induction l with
  | nil => rfl
  | cons c rest ih =>
    have hc : ¬ c = '=' := fun e => h (by simp [e])
    simp [splitEq, hc, ih (fun hm => h (List.mem_cons_of_mem _ hm))]

theorem mem_of_mem_trimSpace {c : Char} {s : Str} (h : c ∈ trimSpace s) : c ∈ s := by
  unfold trimSpace at h
  rw [List.mem_reverse] at h
  have h2 := (@List.dropWhile_sublist Char ((s.dropWhile isSpaceC).reverse) isSpaceC).mem h
  rw [List.mem_reverse] at h2
  exact (@List.dropWhile_sublist Char s isSpaceC).mem h2

theorem lookupA_insertA (k k2 : Str) (v : Val) (m : M) :
    lookupA k (insertA k2 v m) = if k = k2 then some v else lookupA k m := by
  induction m with
  | nil => by_cases h : k = k2 <;> simp [insertA, lookupA, h]
  | cons hd tl ih =>
    obtain ⟨hk, hv⟩ := hd
    simp only [insertA]
    by_cases h1 : k2 = hk
    · subst h1
      by_cases h2 : k = k2 <;> simp [lookupA, h2]
    · rw [if_neg h1]
      by_cases h3 : strLt k2 hk
      · rw [if_pos h3]
        by_cases h2 : k = k2 <;> simp [lookupA, h2]
      · rw [if_neg h3]
        by_cases h2 : k = hk
        · subst h2
          have hkk : ¬ k = k2 := fun e => h1 (e ▸ rfl)
          simp [lookupA, hkk]
        · simp [lookupA, h2, ih]

theorem lookupA_eq_none_of_not_mem {k : Str} {m : M} (h : k ∉ m.map Prod.fst) :
    lookupA k m = none := by
  induction m with
  | nil => rfl
  | cons hd tl ih =>
    simp only [List.map_cons, List.mem_cons] at h
    push_neg at h
    simp [lookupA, h.1, ih h.2]

theorem lookupA_foldIns (k : Str) (parsed : M) (flat : M)
    (hnd : (parsed.map Prod.fst).Nodup) :
    lookupA k (foldIns parsed flat) = (lookupA k parsed).or (lookupA k flat) := by
  induction parsed generalizing flat with
  | nil => simp [foldIns, lookupA, Option.or]
  | cons hd tl ih =>
    obtain ⟨hk, hv⟩ := hd
    simp only [List.map_cons, List.nodup_cons] at hnd
    have step : foldIns ((hk, hv) :: tl) flat = foldIns tl (insertA hk hv flat) := rfl
    rw [step, ih _ hnd.2, lookupA_insertA]
    by_cases h : k = hk
    · subst h
      rw [lookupA_eq_none_of_not_mem hnd.1]
      simp [lookupA, Option.or]
    · simp [lookupA, h]

theorem lookupA_merge_loop (k : Str) (ms : List M) (acc : M)
    (hnd : ∀ m ∈ ms, (m.map Prod.fst).Nodup) :
    lookupA k (ms.foldl (fun flat parsed => foldIns parsed flat) acc)
      = (lastLook ms k).or (lookupA k acc) := by
  induction ms generalizing acc with
  | nil => simp [lastLook, Option.or]
  | cons m rest ih =>
    simp only [List.foldl_cons]
    rw [ih _ (fun x hx => hnd x (List.mem_cons_of_mem _ hx)),
      lookupA_foldIns _ _ _ (hnd m (List.mem_cons_self _ _))]
    show _ = (lastLook (m :: rest) k).or (lookupA k acc)
    rw [show lastLook (m :: rest) k = (lastLook rest k).or (lookupA k m) from rfl]
    cases lastLook rest k <;> cases lookupA k m <;> simp [Option.or]

theorem lastIdxOf_eq_none_iff {c : Char} {s : Str} : lastIdxOf c s = none ↔ c ∉ s := by
  induction s with
  | nil => simp [lastIdxOf]
  | cons x xs ih =>
    simp only [lastIdxOf, List.mem_cons, not_or]
    cases hx : lastIdxOf c xs with
    | some i =>
      simp only [hx]
      constructor
      · intro h; exact Option.noConfusion h
      · rintro ⟨-, h2⟩
        rw [ih.mpr h2] at hx
        exact Option.noConfusion hx
    | none =>
      simp only [hx]
      by_cases hxc : x = c
      · rw [if_pos hxc]
        constructor
        · intro h; exact Option.noConfusion h
        · rintro ⟨h1, -⟩; exact absurd hxc.symm h1
      · rw [if_neg hxc]
        constructor
        · intro _; exact ⟨fun e => hxc e.symm, ih.mp hx⟩
        · intro _; rfl

theorem lastIdxOf_spec {c : Char} {s : Str} {b : Nat} (h : lastIdxOf c s = some b) :
    b < s.length ∧ s[b]? = some c ∧ c ∉ s.drop (b + 1) := by
  induction s generalizing b with
  | nil => exact Option.noConfusion h
  | cons x xs ih =>
    simp only [lastIdxOf] at h
    cases hx : lastIdxOf c xs with
    | some i =>
      simp only [hx] at h
      obtain rfl : i + 1 = b := Option.some.inj h
      obtain ⟨h1, h2, h3⟩ := ih hx
      refine ⟨by simpa using Nat.succ_lt_succ h1, ?_, ?_⟩
      · simpa [List.getElem?_cons_succ] using h2
      · simpa [List.drop_succ_cons] using h3
    | none =>
      simp only [hx] at h
      by_cases hxc : x = c
      · rw [if_pos hxc] at h
        obtain rfl : 0 = b := Option.some.inj h
        refine ⟨Nat.succ_pos _, by simp [hxc], ?_⟩
        simpa [List.drop_succ_cons] using lastIdxOf_eq_none_iff.mp hx
      · rw [if_neg hxc] at h
        exact Option.noConfusion h

theorem lastIdxOf_append_cons {c : Char} (nm t : Str) (ht : c ∉ t) :
    lastIdxOf c (nm ++ c :: t) = some nm.length := by
  induction nm with
  | nil => simp [lastIdxOf, lastIdxOf_eq_none_iff.mpr ht]
  | cons x xs ih => simp [lastIdxOf, ih]

theorem eq_take_cons_drop {s : Str} {b : Nat} {c : Char} (hb : s[b]? = some c) :
    s = s.take b ++ c :: s.drop (b + 1) := by
  obtain ⟨hlt, hget⟩ := List.getElem?_eq_some.mp hb
  conv_lhs => rw [← List.take_append_drop b s]
  rw [List.drop_eq_getElem_cons hlt, hget]

theorem strLt_irrefl (s : Str) : strLt s s = false := by
  induction s with
  | nil => rfl
  | cons c rest ih => simp [strLt, ih]

theorem strLt_asymm : ∀ {a b : Str}, strLt a b = true → strLt b a = false := by
  intro a
  induction a with
  | nil =>
    intro b h
    cases b with
    | nil => simp [strLt] at h
    | cons y ys => rfl
  | cons x xs ih =>
    intro b h
    cases b with
    | nil => simp [strLt] at h
    | cons y ys =>
      simp only [strLt] at h ⊢
      by_cases h1 : x < y
      · rw [if_neg (asymm h1), if_pos h1]
      · rw [if_neg h1] at h
        by_cases h2 : y < x
        · rw [if_pos h2] at h; cases h
        · rw [if_neg h2] at h
          rw [if_neg h2, if_neg h1]
          exact ih h

theorem strLt_trans : ∀ {a b c : Str}, strLt a b = true → strLt b c = true → strLt a c = true := by
  intro a
  induction a with
  | nil =>
    intro b c h1 h2
    cases b with
    | nil => simp [strLt] at h1
    | cons y ys =>
      cases c with
      | nil => simp [strLt] at h2
      | cons z zs => rfl
  | cons x xs ih =>
    intro b c h1 h2
    cases b with
    | nil => simp [strLt] at h1
    | cons y ys =>
      cases c with
      | nil => simp [strLt] at h2
      | cons z zs =>
        simp only [strLt] at h1 h2 ⊢
        by_cases hxy : x < y
        · by_cases hyz : y < z
          · rw [if_pos (lt_trans hxy hyz)]
          · rw [if_neg hyz] at h2
            by_cases hzy : z < y
            · rw [if_pos hzy] at h2; cases h2
            · have hyz2 : y = z := le_antisymm (not_lt.mp hzy) (not_lt.mp hyz)
              rw [if_pos (hyz2 ▸ hxy)]
        · rw [if_neg hxy] at h1
          by_cases hyx : y < x
          · rw [if_pos hyx] at h1; cases h1
          · rw [if_neg hyx] at h1
            have hxy2 : x = y := le_antisymm (not_lt.mp hyx) (not_lt.mp hxy)
            subst hxy2
            by_cases hxz : x < z
            · rw [if_pos hxz]
            · by_cases hzx : z < x
              · rw [if_neg hxz, if_pos hzx] at h2; cases h2
              · rw [if_neg hxz, if_neg hzx] at h2
                rw [if_neg hxz, if_neg hzx]
                exact ih h1 h2

theorem strLt_total {a b : Str} (h : ¬ a = b) : strLt a b = true ∨ strLt b a = true := by
  induction a generalizing b with
  | nil =>
    cases b with
    | nil => exact absurd rfl h
    | cons y ys => exact Or.inl rfl
  | cons x xs ih =>
    cases b with
    | nil => exact Or.inr rfl
    | cons y ys =>
      by_cases h1 : x < y
      · exact Or.inl (by simp [strLt, h1])
      · by_cases h2 : y < x
        · exact Or.inr (by simp [strLt, h2])
        · have hxy : x = y := le_antisymm (not_lt.mp h2) (not_lt.mp h1)
          subst hxy
          have hne : ¬ xs = ys := fun e => h (by rw [e])
          rcases ih hne with h3 | h3
          · exact Or.inl (by simp [strLt, h3])
          · exact Or.inr (by simp [strLt, h3])

theorem insertA_comm {k1 k2 : Str} (v1 v2 : Val) (m : M) (h : ¬ k1 = k2) :
    insertA k1 v1 (insertA k2 v2 m) = insertA k2 v2 (insertA k1 v1 m) := by
  have h21 : ¬ k2 = k1 := fun e => h e.symm
  induction m with
  | nil =>
    rcases strLt_total h with ht | ht
    · simp [insertA, h, h21, ht, strLt_asymm ht]
    · simp [insertA, h, h21, ht, strLt_asymm ht]
  | cons hd tl ih =>
    obtain ⟨hk, hv⟩ := hd
    by_cases e2 : k2 = hk
    · subst e2
      rcases strLt_total h with ht | ht
      · simp [insertA, h, h21, ht, strLt_asymm ht]
      · simp [insertA, h, h21, ht, strLt_asymm ht]
    · by_cases e1 : k1 = hk
      · subst e1
        rcases strLt_total h21 with ht | ht
        · simp [insertA, h, h21, e2, ht, strLt_asymm ht]
        · simp [insertA, h, h21, e2, ht, strLt_asymm ht]
      · by_cases s2 : strLt k2 hk
        · by_cases s1 : strLt k1 hk
          · rcases strLt_total h with ht | ht
            · simp [insertA, h, h21, e1, e2, s1, s2, ht, strLt_asymm ht]
            · simp [insertA, h, h21, e1, e2, s1, s2, ht, strLt_asymm ht]
          · have ht : strLt k2 k1 = true := by
              rcases strLt_total h21 with ht | ht
              · exact ht
              · rcases strLt_total e1 with hu | hu
                · exact absurd hu (by simp [s1])
                · exact absurd (strLt_trans s2 hu) (by simp [strLt_asymm ht])
            simp [insertA, h, h21, e1, e2, s1, s2, ht, strLt_asymm ht]
        · by_cases s1 : strLt k1 hk
          · have ht : strLt k1 k2 = true := by
              rcases strLt_total h with ht | ht
              · exact ht
              · rcases strLt_total e2 with hu | hu
                · exact absurd hu (by simp [s2])
                · exact absurd (strLt_trans s1 hu) (by simp [strLt_asymm ht])
            simp [insertA, h, h21, e1, e2, s1, s2, ht, strLt_asymm ht]
          · simp [insertA, h, h21, e1, e2, s1, s2, ih]

theorem insertA_append_gt {k : Str} (v : Val) {acc : M}
    (h : ∀ kv ∈ acc, strLt kv.1 k = true) :
    insertA k v acc = acc ++ [(k, v)] := by
  induction acc with
  | nil => rfl
  | cons hd tl ih =>
    obtain ⟨hk, hv⟩ := hd
    have hh := h (hk, hv) (List.mem_cons_self _ _)
    have hne : ¬ k = hk := fun e => by
      rw [e] at hh
      rw [strLt_irrefl] at hh
      cases hh
    have hlt : strLt k hk = false := strLt_asymm hh
    simp only [insertA]
    rw [if_neg hne, if_neg (by simp [hlt]),
      ih (fun kv hkv => h kv (List.mem_cons_of_mem _ hkv))]
    simp

theorem foldIns_sorted : ∀ (m acc : M),
    (∀ a ∈ acc, ∀ b ∈ m, strLt a.1 b.1 = true) →
    List.Pairwise (fun a b : Str × Val => strLt a.1 b.1 = true) m →
    foldIns m acc = acc ++ m := by
  intro m
  induction m with
  | nil => intro acc _ _; simp [foldIns]
  | cons hd tl ih =>
    intro acc hac hp
    rw [List.pairwise_cons] at hp
    have step : foldIns (hd :: tl) acc = foldIns tl (insertA hd.1 hd.2 acc) := rfl
    rw [step, insertA_append_gt _ (fun kv hkv => hac kv hkv hd (List.mem_cons_self _ _))]
    rw [ih (acc ++ [(hd.1, hd.2)]) ?press hp.2]
    · simp
    case press =>
      intro a ha b hb
      rcases List.mem_append.mp ha with ha2 | ha2
      · exact hac a ha2 b (List.mem_cons_of_mem _ hb)
      · have : a = (hd.1, hd.2) := by simpa using ha2
        rw [this]
        exact hp.1 b hb

theorem foldIns_perm {l1 l2 : List (Str × Val)} (hp : l1.Perm l2) :
    (l1.map Prod.fst).Nodup → ∀ acc, foldIns l1 acc = foldIns l2 acc := by
  induction hp with
  | nil => intro _ _; rfl
  | cons x hp ih =>
    intro hnd acc
    simp only [List.map_cons, List.nodup_cons] at hnd
    exact ih hnd.2 (insertA x.1 x.2 acc)
  | swap x y l =>
    intro hnd acc
    simp only [List.map_cons, List.nodup_cons, List.mem_cons] at hnd
    have hxy : ¬ x.1 = y.1 := fun e => hnd.1 (Or.inl e.symm)
    show foldIns l (insertA x.1 x.2 (insertA y.1 y.2 acc))
      = foldIns l (insertA y.1 y.2 (insertA x.1 x.2 acc))
    rw [insertA_comm _ _ _ hxy]
  | trans h12 _ ih1 ih2 =>
    intro hnd acc
    rw [ih1 hnd acc, ih2 (((h12.map Prod.fst).nodup_iff).mp hnd) acc]

theorem splitDot_eq_singleton {k : Str} (h : '.' ∉ k) : splitDot k = [k] := by
  induction k with
  | nil => rfl
  | cons c rest ih =>
    simp only [List.mem_cons, not_or] at h
    simp only [splitDot, ih h.2]
    rw [if_neg (fun e => h.1 e.symm)]

theorem parseArrayKey_not_array {s : Str} (h : (parseArrayKey s).2.2 = false) :
    parseArrayKey s = (s, -1, false) := by
  unfold parseArrayKey at h ⊢
  by_cases h1 : s.getLast? = some ']'
  · rw [if_pos h1] at h ⊢
    cases hb : lastIdxOf '[' s with
    | none => simp
    | some b =>
      simp only [hb] at h ⊢
      cases ha : atoi ((s.drop (b + 1)).dropLast) with
      | none => simp [ha]
      | some i => simp [ha] at h
  · rw [if_neg h1]

theorem unflatten_scalar_entries : ∀ (l : List (Str × Val)) (acc : M),
    (∀ e ∈ l, '.' ∉ e.1 ∧ (parseArrayKey e.1).2.2 = false) →
    l.foldl unflattenStep (some acc) = some (foldIns l acc) := by
  intro l
  induction l with
  | nil => intro acc _; rfl
  | cons e tl ih =>
    intro acc hk
    obtain ⟨he1, he2⟩ := hk e (List.mem_cons_self _ _)
    have hstep : unflattenStep (some acc) e = some (insertA e.1 e.2 acc) := by
      show putPath (splitDot e.1) e.2 acc = _
      rw [splitDot_eq_singleton he1]
      simp [putPath, parseArrayKey_not_array he2]
    rw [List.foldl_cons, hstep]
    exact ih _ (fun x hx => hk x (List.mem_cons_of_mem _ hx))

theorem flatten_scalar_entries : ∀ (m out : M), (∀ e ∈ m, isScalar e.2 = true) →
    flatten m [] out = foldIns m out := by
  intro m
  induction m with
  | nil => intro out _; rfl
  | cons e tl ih =>
    intro out hsc
    obtain ⟨k, v⟩ := e
    have hs := hsc (k, v) (List.mem_cons_self _ _)
    have hfv : flattenVal v (joinKey [] k) out = insertA k v out := by
      cases v <;> simp [isScalar] at hs ⊢ <;> rfl
    show flatten tl [] (flattenVal v (joinKey [] k) out) = _
    rw [hfv]
    exact ih _ (fun x hx => hsc x (List.mem_cons_of_mem _ hx))

/-! ## Machinery for the order-independence of `unflatten` -/

theorem lookupA_insertA_self (k : Str) (v : Val) (m : M) :
    lookupA k (insertA k v m) = some v := by
  rw [lookupA_insertA, if_pos rfl]

theorem lookupA_insertA_ne {k k2 : Str} (v : Val) (m : M) (h : ¬ k = k2) :
    lookupA k (insertA k2 v m) = lookupA k m := by
  rw [lookupA_insertA, if_neg h]

theorem insertA_insertA (k : Str) (x y : Val) (m : M) :
    insertA k x (insertA k y m) = insertA k x m := by
  induction m with
  | nil => simp [insertA]
  | cons hd tl ih =>
    obtain ⟨hk, hv⟩ := hd
    by_cases e : k = hk
    · simp [insertA, e]
    · by_cases s : strLt k hk
      · simp [insertA, e, s]
      · simp [insertA, e, s, ih]

theorem segsCompat_symm : ∀ (p q : List (Str × Int × Bool)), segsCompat p q = segsCompat q p := by
  intro p
  induction p with
  | nil => intro q; cases q <;> rfl
  | cons s1 r1 ih =>
    intro q
    cases q with
    | nil => rfl
    | cons s2 r2 =>
      rcases s1 with ⟨n1, i1, a1⟩
      rcases s2 with ⟨n2, i2, a2⟩
      simp only [segsCompat]
      by_cases hn : n1 = n2
      · rw [if_pos hn, if_pos hn.symm]
        by_cases ha : a1 = a2
        · rw [if_pos ha, if_pos ha.symm]
          by_cases hii : a1 = true ∧ ¬ i1 = i2
          · rw [if_pos hii, if_pos ⟨ha ▸ hii.1, fun e => hii.2 e.symm⟩]
          · rw [if_neg hii,
              if_neg (fun hc => hii ⟨ha.trans hc.1, fun e => hc.2 e.symm⟩), ih r2]
        · rw [if_neg ha, if_neg (fun e => ha e.symm)]
      · rw [if_neg hn, if_neg (fun e => hn e.symm)]

theorem putPath_eq_putPathD : ∀ (parts : List Str) (v : Val) (m : M),
    putPath parts v m = putPathD (parts.map parseArrayKey) v m := by
  intro parts
  induction parts with
  | nil => intro v m; rfl
  | cons seg rest ih =>
    intro v m
    rcases hpk : parseArrayKey seg with ⟨key, idx, isArr⟩
    rw [List.map_cons, hpk]
    simp only [putPath, putPathD, hpk]
    cases isArr
    · by_cases hrest : rest = []
      · subst hrest; simp
      · have hrm : ¬ (rest.map parseArrayKey) = [] := by simpa using hrest
        simp only [if_neg hrest, if_neg hrm, Bool.false_eq_true, if_false]
        cases hlk : lookupA key m
        · simp [ih]
        · rename_i vv; cases vv <;> simp [ih]
    · by_cases hidx : 0 ≤ idx
      · by_cases hrest : rest = []
        · subst hrest; simp [hidx]
        · have hrm : ¬ (rest.map parseArrayKey) = [] := by simpa using hrest
          simp only [if_pos hidx, if_neg hrest, if_neg hrm, if_true]
          cases hsl : (padTo (ensureArr (lookupA key m)) idx)[idx.toNat]?
          · simp [hsl]
          · rename_i vv; cases vv <;> simp [hsl, ih]
      · simp [hidx]

theorem unflattenStep_some (m : M) (e : Str × Val) :
    unflattenStep (some m) e = putPathD (decodeKey e.1) e.2 m := by
  show putPath (splitDot e.1) e.2 m = _
  rw [putPath_eq_putPathD]
  rfl

theorem pathOK_nil : ∀ {p : List (Str × Int × Bool)}, segsWF p = true → pathOK p [] = true := by
  intro p
  induction p with
  | nil => intro _; rfl
  | cons s rest ih =>
    rcases s with ⟨key, idx, isArr⟩
    intro hwf
    rw [segsWF, List.all_cons, Bool.and_eq_true] at hwf
    obtain ⟨h1, h2⟩ := hwf
    have h2' : segsWF rest = true := h2
    cases isArr
    · by_cases hrest : rest = []
      · subst hrest; rfl
      · simp [pathOK, hrest, lookupA, ih h2']
    · have hidx : 0 ≤ idx := by simpa [segWF] using h1
      by_cases hrest : rest = []
      · subst hrest; simp [pathOK]
      · have hslot : (padTo (ensureArr (lookupA key ([] : M))) idx)[idx.toNat]?
            = some Val.vnull := by
          show (padTo [] idx)[idx.toNat]? = _
          rw [padTo, if_neg (by omega)]
          simp [List.getElem?_replicate]
        simp [pathOK, hrest, hslot, ih h2']

theorem padTo_getElem? (arr : List Val) (idx : Int) (h : 0 ≤ idx) (j : Nat) :
    (padTo arr idx)[j]? = if j < arr.length then arr[j]?
      else if j < max arr.length (idx.toNat + 1) then some Val.vnull else none := by
  rw [padTo, if_neg (by omega), List.getElem?_append]
  by_cases h1 : j < arr.length
  · rw [if_pos h1, if_pos h1]
  · rw [if_neg h1, if_neg h1, List.getElem?_replicate]
    by_cases h2 : j < max arr.length (idx.toNat + 1)
    · rw [if_pos (by omega), if_pos h2]
    · rw [if_neg (by omega), if_neg h2]

theorem padTo_of_le {arr : List Val} {idx : Int} (h : idx.toNat + 1 ≤ arr.length) :
    padTo arr idx = arr := by
  rw [padTo]
  by_cases h0 : idx < 0
  · rw [if_pos h0]
  · rw [if_neg h0, show idx.toNat + 1 - arr.length = 0 by omega]
    simp

theorem padSet_length (arr : List Val) (idx : Int) (h : 0 ≤ idx) (x : Val) :
    ((padTo arr idx).set idx.toNat x).length = max arr.length (idx.toNat + 1) := by
  rw [List.length_set, padTo_length _ _ h]

theorem padSet_getElem? (arr : List Val) (idx : Int) (h : 0 ≤ idx) (x : Val) (j : Nat) :
    ((padTo arr idx).set idx.toNat x)[j]?
      = if j = idx.toNat then some x
        else if j < arr.length then arr[j]?
        else if j < max arr.length (idx.toNat + 1) then some Val.vnull else none := by
  by_cases hj : j = idx.toNat
  · subst hj
    rw [List.getElem?_set_self (padTo_toNat_lt _ _ h), if_pos rfl]
  · rw [List.getElem?_set_ne (fun e => hj e.symm), padTo_getElem? _ _ h, if_neg hj]

theorem padSet_pad_getElem? (arr : List Val) (i1 i2 : Int) (h1 : 0 ≤ i1) (h2 : 0 ≤ i2)
    (x : Val) (j : Nat) (hj : ¬ j = i1.toNat) :
    (padTo ((padTo arr i1).set i1.toNat x) i2)[j]?
      = if j < arr.length then arr[j]?
        else if j < max (max arr.length (i1.toNat + 1)) (i2.toNat + 1) then some Val.vnull
        else none := by
  rw [padTo_getElem? _ _ h2, padSet_length _ _ h1, padSet_getElem? _ _ h1, if_neg hj]
  split_ifs <;> first | rfl | omega

theorem padSet_pad_slot (arr : List Val) (i1 i2 : Int) (h1 : 0 ≤ i1) (h2 : 0 ≤ i2)
    (hne : ¬ i1.toNat = i2.toNat) (x : Val) :
    (padTo ((padTo arr i1).set i1.toNat x) i2)[i2.toNat]?
      = (padTo arr i2)[i2.toNat]? := by
  rw [padSet_pad_getElem? _ _ _ h1 h2 x _ (fun e => hne e.symm), padTo_getElem? _ _ h2]
  split_ifs <;> first | rfl | omega

theorem padSet_padSet_comm (arr : List Val) (i1 i2 : Int) (h1 : 0 ≤ i1) (h2 : 0 ≤ i2)
    (hne : ¬ i1.toNat = i2.toNat) (x y : Val) :
    (padTo ((padTo arr i1).set i1.toNat x) i2).set i2.toNat y
      = (padTo ((padTo arr i2).set i2.toNat y) i1).set i1.toNat x := by
  apply List.ext_getElem?
  intro j
  by_cases hj2 : j = i2.toNat
  · subst hj2
    rw [List.getElem?_set_self (padTo_toNat_lt _ _ h2),
      List.getElem?_set_ne hne,
      padTo_getElem? _ _ h1, padSet_length _ _ h2,
      if_pos (show i2.toNat < max arr.length (i2.toNat + 1) by omega),
      padSet_getElem? _ _ h2, if_pos rfl]
  · by_cases hj1 : j = i1.toNat
    · subst hj1
      rw [List.getElem?_set_ne (fun e => hj2 e.symm),
        List.getElem?_set_self (padTo_toNat_lt _ _ h1),
        padTo_getElem? _ _ h2, padSet_length _ _ h1,
        if_pos (show i1.toNat < max arr.length (i1.toNat + 1) by omega),
        padSet_getElem? _ _ h1, if_pos rfl]
    · rw [List.getElem?_set_ne (fun e => hj2 e.symm),
        List.getElem?_set_ne (fun e => hj1 e.symm),
        padSet_pad_getElem? _ _ _ h1 h2 x _ hj1,
        padSet_pad_getElem? _ _ _ h2 h1 y _ hj2]
      split_ifs <;> first | rfl | omega

theorem pathOK_congr_lookup {key : Str} {idx : Int} {isArr : Bool}
    {rest : List (Str × Int × Bool)} {m1 m2 : M}
    (h : lookupA key m1 = lookupA key m2) :
    pathOK ((key, idx, isArr) :: rest) m1 = pathOK ((key, idx, isArr) :: rest) m2 := by
  cases isArr <;> simp only [pathOK] <;> rw [h]

theorem pathOK_congr_slot {key : Str} {idx : Int}
    {rest : List (Str × Int × Bool)} {m1 m2 : M}
    (h : (padTo (ensureArr (lookupA key m1)) idx)[idx.toNat]?
        = (padTo (ensureArr (lookupA key m2)) idx)[idx.toNat]?) :
    pathOK ((key, idx, true) :: rest) m1 = pathOK ((key, idx, true) :: rest) m2 := by
  simp only [pathOK]
  rw [h]
  simp

theorem putPathD_isSome : ∀ {p : List (Str × Int × Bool)} (v : Val) {m : M},
    segsWF p = true → pathOK p m = true → ∃ m2, putPathD p v m = some m2 := by
  intro p
  induction p with
  | nil => intro v m _ _; exact ⟨m, rfl⟩
  | cons s rest ih =>
    rcases s with ⟨key, idx, isArr⟩
    intro v m hwf hok
    rw [segsWF, List.all_cons, Bool.and_eq_true] at hwf
    obtain ⟨hw1, hw2⟩ := hwf
    have hw2' : segsWF rest = true := hw2
    cases isArr
    · by_cases hrest : rest = []
      · exact ⟨insertA key v m, by simp [putPathD, hrest]⟩
      · cases hlk : lookupA key m with
        | none =>
          have hok2 : pathOK rest [] = true := by simpa [pathOK, hrest, hlk] using hok
          obtain ⟨r, hr⟩ := ih v hw2' hok2
          exact ⟨insertA key (Val.vmap r) m, by simp [putPathD, hrest, hlk, hr]⟩
        | some vv =>
          cases vv with
          | vmap inner =>
            have hok2 : pathOK rest inner = true := by simpa [pathOK, hrest, hlk] using hok
            obtain ⟨r, hr⟩ := ih v hw2' hok2
            exact ⟨insertA key (Val.vmap r) m, by simp [putPathD, hrest, hlk, hr]⟩
          | vnull => simp [pathOK, hrest, hlk] at hok
          | vstr s => simp [pathOK, hrest, hlk] at hok
          | vint n => simp [pathOK, hrest, hlk] at hok
          | vbool b => simp [pathOK, hrest, hlk] at hok
          | vlist xs => simp [pathOK, hrest, hlk] at hok
    · have hidx : 0 ≤ idx := by simpa [segWF] using hw1
      by_cases hrest : rest = []
      · exact ⟨insertA key (Val.vlist
            ((padTo (ensureArr (lookupA key m)) idx).set idx.toNat v)) m,
          by simp [putPathD, hrest, hidx]⟩
      · cases hsl : (padTo (ensureArr (lookupA key m)) idx)[idx.toNat]? with
        | none => simp [pathOK, hrest, hsl] at hok
        | some slot =>
          cases slot with
          | vnull =>
            have hok2 : pathOK rest [] = true := by simpa [pathOK, hrest, hsl] using hok
            obtain ⟨r, hr⟩ := ih v hw2' hok2
            exact ⟨insertA key (Val.vlist
                ((padTo (ensureArr (lookupA key m)) idx).set idx.toNat (Val.vmap r))) m,
              by simp [putPathD, hrest, hidx, hsl, hr]⟩
          | vmap inner =>
            have hok2 : pathOK rest inner = true := by simpa [pathOK, hrest, hsl] using hok
            obtain ⟨r, hr⟩ := ih v hw2' hok2
            exact ⟨insertA key (Val.vlist
                ((padTo (ensureArr (lookupA key m)) idx).set idx.toNat (Val.vmap r))) m,
              by simp [putPathD, hrest, hidx, hsl, hr]⟩
          | vstr s => simp [pathOK, hrest, hsl] at hok
          | vint n => simp [pathOK, hrest, hsl] at hok
          | vbool b => simp [pathOK, hrest, hsl] at hok
          | vlist xs => simp [pathOK, hrest, hsl] at hok

theorem putPathD_arr_shape {key : Str} {idx : Int}
    {rest : List (Str × Int × Bool)} (v : Val) {m : M}
    (hwrest : segsWF rest = true) (hidx : 0 ≤ idx)
    (hok : pathOK ((key, idx, true) :: rest) m = true) :
    ∃ x : Val,
      putPathD ((key, idx, true) :: rest) v m
        = some (insertA key (Val.vlist
            ((padTo (ensureArr (lookupA key m)) idx).set idx.toNat x)) m)
      ∧ ∀ m2 : M,
          (padTo (ensureArr (lookupA key m2)) idx)[idx.toNat]?
            = (padTo (ensureArr (lookupA key m)) idx)[idx.toNat]? →
          pathOK ((key, idx, true) :: rest) m2 = true
          ∧ putPathD ((key, idx, true) :: rest) v m2
            = some (insertA key (Val.vlist
                ((padTo (ensureArr (lookupA key m2)) idx).set idx.toNat x)) m2) := by
  by_cases hrest : rest = []
  · refine ⟨v, by simp [putPathD, hrest, hidx], fun m2 hm2 => ⟨?_, by simp [putPathD, hrest, hidx]⟩⟩
    rw [pathOK_congr_slot hm2]
    exact hok
  · cases hsl : (padTo (ensureArr (lookupA key m)) idx)[idx.toNat]? with
    | none => simp [pathOK, hrest, hsl] at hok
    | some slot =>
      cases slot with
      | vnull =>
        have hok2 : pathOK rest [] = true := by simpa [pathOK, hrest, hsl] using hok
        obtain ⟨P1, hP1⟩ := putPathD_isSome v hwrest hok2
        refine ⟨Val.vmap P1, by simp [putPathD, hrest, hidx, hsl, hP1],
          fun m2 hm2 => ⟨?_, by simp [putPathD, hrest, hidx, hm2, hsl, hP1]⟩⟩
        rw [pathOK_congr_slot (hm2.trans hsl.symm)]
        exact hok
      | vmap inner =>
        have hok2 : pathOK rest inner = true := by simpa [pathOK, hrest, hsl] using hok
        obtain ⟨P1, hP1⟩ := putPathD_isSome v hwrest hok2
        refine ⟨Val.vmap P1, by simp [putPathD, hrest, hidx, hsl, hP1],
          fun m2 hm2 => ⟨?_, by simp [putPathD, hrest, hidx, hm2, hsl, hP1]⟩⟩
        rw [pathOK_congr_slot (hm2.trans hsl.symm)]
        exact hok
      | vstr s => simp [pathOK, hrest, hsl] at hok
      | vint n => simp [pathOK, hrest, hsl] at hok
      | vbool b => simp [pathOK, hrest, hsl] at hok
      | vlist xs => simp [pathOK, hrest, hsl] at hok

theorem putPathD_head_shape {key : Str} {idx : Int} {isArr : Bool}
    {rest : List (Str × Int × Bool)} (v : Val) {m : M}
    (hwf : segsWF ((key, idx, isArr) :: rest) = true)
    (hok : pathOK ((key, idx, isArr) :: rest) m = true) :
    ∃ X : Val,
      putPathD ((key, idx, isArr) :: rest) v m = some (insertA key X m)
      ∧ ∀ m2 : M, lookupA key m2 = lookupA key m →
          pathOK ((key, idx, isArr) :: rest) m2 = true
          ∧ putPathD ((key, idx, isArr) :: rest) v m2 = some (insertA key X m2) := by
  rw [segsWF, List.all_cons, Bool.and_eq_true] at hwf
  obtain ⟨hw1, hw2⟩ := hwf
  have hw2' : segsWF rest = true := hw2
  cases isArr
  · by_cases hrest : rest = []
    · refine ⟨v, by simp [putPathD, hrest], fun m2 hm2 => ⟨?_, by simp [putPathD, hrest]⟩⟩
      rw [pathOK_congr_lookup hm2]
      exact hok
    · cases hlk : lookupA key m with
      | none =>
        have hok2 : pathOK rest [] = true := by simpa [pathOK, hrest, hlk] using hok
        obtain ⟨P1, hP1⟩ := putPathD_isSome v hw2' hok2
        refine ⟨Val.vmap P1, by simp [putPathD, hrest, hlk, hP1],
          fun m2 hm2 => ⟨?_, by simp [putPathD, hrest, hm2, hlk, hP1]⟩⟩
        rw [pathOK_congr_lookup (hm2.trans hlk.symm)]
        exact hok
      | some vv =>
        cases vv with
        | vmap inner =>
          have hok2 : pathOK rest inner = true := by simpa [pathOK, hrest, hlk] using hok
          obtain ⟨P1, hP1⟩ := putPathD_isSome v hw2' hok2
          refine ⟨Val.vmap P1, by simp [putPathD, hrest, hlk, hP1],
            fun m2 hm2 => ⟨?_, by simp [putPathD, hrest, hm2, hlk, hP1]⟩⟩
          rw [pathOK_congr_lookup (hm2.trans hlk.symm)]
          exact hok
        | vnull => simp [pathOK, hrest, hlk] at hok
        | vstr s => simp [pathOK, hrest, hlk] at hok
        | vint n => simp [pathOK, hrest, hlk] at hok
        | vbool b => simp [pathOK, hrest, hlk] at hok
        | vlist xs => simp [pathOK, hrest, hlk] at hok
  · have hidx : 0 ≤ idx := by simpa [segWF] using hw1
    obtain ⟨x, hx, hcong⟩ := putPathD_arr_shape v hw2' hidx hok
    refine ⟨Val.vlist ((padTo (ensureArr (lookupA key m)) idx).set idx.toNat x), hx,
      fun m2 hm2 => ?_⟩
    obtain ⟨hok2, heq2⟩ := hcong m2 (by rw [hm2])
    exact ⟨hok2, by rw [heq2, hm2]⟩

theorem ensureArr_vlist (xs : List Val) : ensureArr (some (Val.vlist xs)) = xs := rfl

theorem putPathD_preserve : ∀ {p q : List (Str × Int × Bool)} (v : Val) {m m' : M},
    segsCompat p q = true → segsWF p = true → segsWF q = true →
    pathOK p m = true → pathOK q m = true →
    putPathD p v m = some m' → pathOK q m' = true := by
  intro p
  induction p with
  | nil =>
    intro q v m m' hc _ _ _ _ _
    simp [segsCompat] at hc
  | cons s1 r1 ih =>
    rcases s1 with ⟨n1, i1, a1⟩
    intro q v m m' hc hwp hwq hokp hokq hput
    cases q with
    | nil => simp [segsCompat] at hc
    | cons s2 r2 =>
      rcases s2 with ⟨n2, i2, a2⟩
      have hwps := hwp
      have hwqs := hwq
      rw [segsWF, List.all_cons, Bool.and_eq_true] at hwps hwqs
      obtain ⟨hw1p, hw2p⟩ := hwps
      obtain ⟨hw1q, hw2q⟩ := hwqs
      have hw2p' : segsWF r1 = true := hw2p
      have hw2q' : segsWF r2 = true := hw2q
      by_cases hn : n1 = n2
      case neg =>
        obtain ⟨X, hX, -⟩ := putPathD_head_shape v hwp hokp
        have hm' : m' = insertA n1 X m := (Option.some.inj (hX.symm.trans hput)).symm
        subst hm'
        rw [pathOK_congr_lookup (lookupA_insertA_ne X m (fun e => hn e.symm))]
        exact hokq
      case pos =>
        subst hn
        by_cases ha : a1 = a2
        case neg => simp [segsCompat, ha] at hc
        case pos =>
          subst ha
          cases a1
          case false =>
            have hcr : segsCompat r1 r2 = true := by simpa [segsCompat] using hc
            have hr1ne : r1 ≠ [] := by
              intro e; rw [e] at hcr; simp [segsCompat] at hcr
            have hr2ne : r2 ≠ [] := by
              intro e; rw [e] at hcr; cases r1 <;> simp [segsCompat] at hcr
            cases hlk : lookupA n1 m with
            | none =>
              have hokp2 : pathOK r1 [] = true := by simpa [pathOK, hr1ne, hlk] using hokp
              have hokq2 : pathOK r2 [] = true := by simpa [pathOK, hr2ne, hlk] using hokq
              obtain ⟨P1, hP1⟩ := putPathD_isSome v hw2p' hokp2
              have hput2 : putPathD ((n1, i1, false) :: r1) v m
                  = some (insertA n1 (Val.vmap P1) m) := by
                simp [putPathD, hr1ne, hlk, hP1]
              have hm' : m' = insertA n1 (Val.vmap P1) m :=
                (Option.some.inj (hput2.symm.trans hput)).symm
              subst hm'
              have hP1ok : pathOK r2 P1 = true :=
                ih v hcr hw2p' hw2q' hokp2 hokq2 hP1
              simp [pathOK, hr2ne, lookupA_insertA_self, hP1ok]
            | some vv =>
              cases vv with
              | vmap inner =>
                have hokp2 : pathOK r1 inner = true := by simpa [pathOK, hr1ne, hlk] using hokp
                have hokq2 : pathOK r2 inner = true := by simpa [pathOK, hr2ne, hlk] using hokq
                obtain ⟨P1, hP1⟩ := putPathD_isSome v hw2p' hokp2
                have hput2 : putPathD ((n1, i1, false) :: r1) v m
                    = some (insertA n1 (Val.vmap P1) m) := by
                  simp [putPathD, hr1ne, hlk, hP1]
                have hm' : m' = insertA n1 (Val.vmap P1) m :=
                  (Option.some.inj (hput2.symm.trans hput)).symm
                subst hm'
                have hP1ok : pathOK r2 P1 = true :=
                  ih v hcr hw2p' hw2q' hokp2 hokq2 hP1
                simp [pathOK, hr2ne, lookupA_insertA_self, hP1ok]
              | vnull => simp [pathOK, hr1ne, hlk] at hokp
              | vstr s => simp [pathOK, hr1ne, hlk] at hokp
              | vint n => simp [pathOK, hr1ne, hlk] at hokp
              | vbool b => simp [pathOK, hr1ne, hlk] at hokp
              | vlist xs => simp [pathOK, hr1ne, hlk] at hokp
          case true =>
            have hi1 : 0 ≤ i1 := by simpa [segWF] using hw1p
            have hi2 : 0 ≤ i2 := by simpa [segWF] using hw1q
            by_cases hii : i1 = i2
            case neg =>
              have hiiN : ¬ i1.toNat = i2.toNat := by omega
              obtain ⟨x, hx, -⟩ := putPathD_arr_shape v hw2p' hi1 hokp
              have hm' : m' = insertA n1 (Val.vlist
                  ((padTo (ensureArr (lookupA n1 m)) i1).set i1.toNat x)) m :=
                (Option.some.inj (hx.symm.trans hput)).symm
              subst hm'
              have hslot : (padTo (ensureArr (lookupA n1 (insertA n1 (Val.vlist
                    ((padTo (ensureArr (lookupA n1 m)) i1).set i1.toNat x)) m))) i2)[i2.toNat]?
                  = (padTo (ensureArr (lookupA n1 m)) i2)[i2.toNat]? := by
                rw [lookupA_insertA_self]
                exact padSet_pad_slot _ _ _ hi1 hi2 hiiN x
              rw [pathOK_congr_slot hslot]
              exact hokq
            case pos =>
              subst hii
              have hcr : segsCompat r1 r2 = true := by simpa [segsCompat] using hc
              have hr1ne : r1 ≠ [] := by
                intro e; rw [e] at hcr; simp [segsCompat] at hcr
              have hr2ne : r2 ≠ [] := by
                intro e; rw [e] at hcr; cases r1 <;> simp [segsCompat] at hcr
              cases hsl : (padTo (ensureArr (lookupA n1 m)) i1)[i1.toNat]? with
              | none => simp [pathOK, hr1ne, hsl] at hokp
              | some slot =>
                cases slot with
                | vnull =>
                  have hokp2 : pathOK r1 [] = true := by simpa [pathOK, hr1ne, hsl] using hokp
                  have hokq2 : pathOK r2 [] = true := by simpa [pathOK, hr2ne, hsl] using hokq
                  obtain ⟨P1, hP1⟩ := putPathD_isSome v hw2p' hokp2
                  have hput2 : putPathD ((n1, i1, true) :: r1) v m
                      = some (insertA n1 (Val.vlist ((padTo (ensureArr (lookupA n1 m)) i1).set
                          i1.toNat (Val.vmap P1))) m) := by
                    simp [putPathD, hr1ne, hi1, hsl, hP1]
                  have hm' : m' = insertA n1 (Val.vlist ((padTo (ensureArr (lookupA n1 m)) i1).set
                      i1.toNat (Val.vmap P1))) m :=
                    (Option.some.inj (hput2.symm.trans hput)).symm
                  subst hm'
                  have hP1ok : pathOK r2 P1 = true :=
                    ih v hcr hw2p' hw2q' hokp2 hokq2 hP1
                  have hB : (padTo ((padTo (ensureArr (lookupA n1 m)) i1).set i1.toNat
                      (Val.vmap P1)) i1)[i1.toNat]? = some (Val.vmap P1) := by
                    rw [padTo_of_le (by rw [padSet_length _ _ hi1]; omega)]
                    exact List.getElem?_set_self (padTo_toNat_lt _ _ hi1)
                  simp [pathOK, hr2ne, lookupA_insertA_self, ensureArr_vlist, hB, hP1ok]
                | vmap inner =>
                  have hokp2 : pathOK r1 inner = true := by simpa [pathOK, hr1ne, hsl] using hokp
                  have hokq2 : pathOK r2 inner = true := by simpa [pathOK, hr2ne, hsl] using hokq
                  obtain ⟨P1, hP1⟩ := putPathD_isSome v hw2p' hokp2
                  have hput2 : putPathD ((n1, i1, true) :: r1) v m
                      = some (insertA n1 (Val.vlist ((padTo (ensureArr (lookupA n1 m)) i1).set
                          i1.toNat (Val.vmap P1))) m) := by
                    simp [putPathD, hr1ne, hi1, hsl, hP1]
                  have hm' : m' = insertA n1 (Val.vlist ((padTo (ensureArr (lookupA n1 m)) i1).set
                      i1.toNat (Val.vmap P1))) m :=
                    (Option.some.inj (hput2.symm.trans hput)).symm
                  subst hm'
                  have hP1ok : pathOK r2 P1 = true :=
                    ih v hcr hw2p' hw2q' hokp2 hokq2 hP1
                  have hB : (padTo ((padTo (ensureArr (lookupA n1 m)) i1).set i1.toNat
                      (Val.vmap P1)) i1)[i1.toNat]? = some (Val.vmap P1) := by
                    rw [padTo_of_le (by rw [padSet_length _ _ hi1]; omega)]
                    exact List.getElem?_set_self (padTo_toNat_lt _ _ hi1)
                  simp [pathOK, hr2ne, lookupA_insertA_self, ensureArr_vlist, hB, hP1ok]
                | vstr s => simp [pathOK, hr1ne, hsl] at hokp
                | vint n => simp [pathOK, hr1ne, hsl] at hokp
                | vbool b => simp [pathOK, hr1ne, hsl] at hokp
                | vlist xs => simp [pathOK, hr1ne, hsl] at hokp

theorem putPathD_comm : ∀ {p q : List (Str × Int × Bool)} (v w : Val) {m : M},
    segsCompat p q = true → segsWF p = true → segsWF q = true →
    pathOK p m = true → pathOK q m = true →
    (putPathD p v m).bind (fun mm => putPathD q w mm)
      = (putPathD q w m).bind (fun mm => putPathD p v mm) := by
  intro p
  induction p with
  | nil => intro q v w m hc _ _ _ _; simp [segsCompat] at hc
  | cons s1 r1 ih =>
    rcases s1 with ⟨n1, i1, a1⟩
    intro q v w m hc hwp hwq hokp hokq
    cases q with
    | nil => simp [segsCompat] at hc
    | cons s2 r2 =>
      rcases s2 with ⟨n2, i2, a2⟩
      have hwps := hwp
      have hwqs := hwq
      rw [segsWF, List.all_cons, Bool.and_eq_true] at hwps hwqs
      obtain ⟨hw1p, hw2p⟩ := hwps
      obtain ⟨hw1q, hw2q⟩ := hwqs
      have hw2p' : segsWF r1 = true := hw2p
      have hw2q' : segsWF r2 = true := hw2q
      by_cases hn : n1 = n2
      case neg =>
        obtain ⟨X1, hX1, hX1c⟩ := putPathD_head_shape v hwp hokp
        obtain ⟨X2, hX2, hX2c⟩ := putPathD_head_shape w hwq hokq
        rw [hX1, hX2]
        show putPathD ((n2, i2, a2) :: r2) w (insertA n1 X1 m)
          = putPathD ((n1, i1, a1) :: r1) v (insertA n2 X2 m)
        rw [(hX2c (insertA n1 X1 m) (lookupA_insertA_ne _ _ (fun e => hn e.symm))).2,
          (hX1c (insertA n2 X2 m) (lookupA_insertA_ne _ _ hn)).2,
          insertA_comm _ _ _ (fun e => hn e.symm)]
      case pos =>
        subst hn
        by_cases ha : a1 = a2
        case neg => simp [segsCompat, ha] at hc
        case pos =>
          subst ha
          cases a1
          case false =>
            have hcr : segsCompat r1 r2 = true := by simpa [segsCompat] using hc
            have hr1ne : r1 ≠ [] := by
              intro e; rw [e] at hcr; simp [segsCompat] at hcr
            have hr2ne : r2 ≠ [] := by
              intro e; rw [e] at hcr; cases r1 <;> simp [segsCompat] at hcr
            cases hlk : lookupA n1 m with
            | none =>
              have hokp2 : pathOK r1 [] = true := by simpa [pathOK, hr1ne, hlk] using hokp
              have hokq2 : pathOK r2 [] = true := by simpa [pathOK, hr2ne, hlk] using hokq
              obtain ⟨P1, hP1⟩ := putPathD_isSome v hw2p' (pathOK_nil hw2p')
              obtain ⟨P2, hP2⟩ := putPathD_isSome w hw2q' (pathOK_nil hw2q')
              have hE : putPathD r2 w P1 = putPathD r1 v P2 := by
                have h := ih v w hcr hw2p' hw2q'
                  (pathOK_nil hw2p') (pathOK_nil hw2q')
                rw [hP1, hP2] at h
                simpa using h
              have hL : putPathD ((n1, i1, false) :: r1) v m
                  = some (insertA n1 (Val.vmap P1) m) := by
                simp [putPathD, hr1ne, hlk, hP1]
              have hR : putPathD ((n1, i2, false) :: r2) w m
                  = some (insertA n1 (Val.vmap P2) m) := by
                simp [putPathD, hr2ne, hlk, hP2]
              rw [hL, hR]
              show putPathD ((n1, i2, false) :: r2) w (insertA n1 (Val.vmap P1) m)
                = putPathD ((n1, i1, false) :: r1) v (insertA n1 (Val.vmap P2) m)
              have hQL : putPathD ((n1, i2, false) :: r2) w (insertA n1 (Val.vmap P1) m)
                  = (putPathD r2 w P1).map
                      (fun r => insertA n1 (Val.vmap r) (insertA n1 (Val.vmap P1) m)) := by
                simp [putPathD, hr2ne, lookupA_insertA_self]
              have hQR : putPathD ((n1, i1, false) :: r1) v (insertA n1 (Val.vmap P2) m)
                  = (putPathD r1 v P2).map
                      (fun r => insertA n1 (Val.vmap r) (insertA n1 (Val.vmap P2) m)) := by
                simp [putPathD, hr1ne, lookupA_insertA_self]
              rw [hQL, hQR, hE]
              cases hQ : putPathD r1 v P2 with
              | none => rfl
              | some Q => simp [insertA_insertA]
            | some vv =>
              cases vv with
              | vmap inner =>
                have hokp2 : pathOK r1 inner = true := by simpa [pathOK, hr1ne, hlk] using hokp
                have hokq2 : pathOK r2 inner = true := by simpa [pathOK, hr2ne, hlk] using hokq
                obtain ⟨P1, hP1⟩ := putPathD_isSome v hw2p' hokp2
                obtain ⟨P2, hP2⟩ := putPathD_isSome w hw2q' hokq2
                have hE : putPathD r2 w P1 = putPathD r1 v P2 := by
                  have h := ih v w hcr hw2p' hw2q' hokp2 hokq2
                  rw [hP1, hP2] at h
                  simpa using h
                have hL : putPathD ((n1, i1, false) :: r1) v m
                    = some (insertA n1 (Val.vmap P1) m) := by
                  simp [putPathD, hr1ne, hlk, hP1]
                have hR : putPathD ((n1, i2, false) :: r2) w m
                    = some (insertA n1 (Val.vmap P2) m) := by
                  simp [putPathD, hr2ne, hlk, hP2]
                rw [hL, hR]
                show putPathD ((n1, i2, false) :: r2) w (insertA n1 (Val.vmap P1) m)
                  = putPathD ((n1, i1, false) :: r1) v (insertA n1 (Val.vmap P2) m)
                have hQL : putPathD ((n1, i2, false) :: r2) w (insertA n1 (Val.vmap P1) m)
                    = (putPathD r2 w P1).map
                        (fun r => insertA n1 (Val.vmap r) (insertA n1 (Val.vmap P1) m)) := by
                  simp [putPathD, hr2ne, lookupA_insertA_self]
                have hQR : putPathD ((n1, i1, false) :: r1) v (insertA n1 (Val.vmap P2) m)
                    = (putPathD r1 v P2).map
                        (fun r => insertA n1 (Val.vmap r) (insertA n1 (Val.vmap P2) m)) := by
                  simp [putPathD, hr1ne, lookupA_insertA_self]
                rw [hQL, hQR, hE]
                cases hQ : putPathD r1 v P2 with
                | none => rfl
                | some Q => simp [insertA_insertA]
              | vnull => simp [pathOK, hr1ne, hlk] at hokp
              | vstr s => simp [pathOK, hr1ne, hlk] at hokp
              | vint n => simp [pathOK, hr1ne, hlk] at hokp
              | vbool b => simp [pathOK, hr1ne, hlk] at hokp
              | vlist xs => simp [pathOK, hr1ne, hlk] at hokp
          case true =>
            have hi1 : 0 ≤ i1 := by simpa [segWF] using hw1p
            have hi2 : 0 ≤ i2 := by simpa [segWF] using hw1q
            by_cases hii : i1 = i2
            case neg =>
              have hiiN : ¬ i1.toNat = i2.toNat := by omega
              obtain ⟨x1, hx1, hx1c⟩ := putPathD_arr_shape v hw2p' hi1 hokp
              obtain ⟨x2, hx2, hx2c⟩ := putPathD_arr_shape w hw2q' hi2 hokq
              rw [hx1, hx2]
              show putPathD ((n1, i2, true) :: r2) w (insertA n1 (Val.vlist
                    ((padTo (ensureArr (lookupA n1 m)) i1).set i1.toNat x1)) m)
                = putPathD ((n1, i1, true) :: r1) v (insertA n1 (Val.vlist
                    ((padTo (ensureArr (lookupA n1 m)) i2).set i2.toNat x2)) m)
              have hs2 : (padTo (ensureArr (lookupA n1 (insertA n1 (Val.vlist
                    ((padTo (ensureArr (lookupA n1 m)) i1).set i1.toNat x1)) m))) i2)[i2.toNat]?
                  = (padTo (ensureArr (lookupA n1 m)) i2)[i2.toNat]? := by
                rw [lookupA_insertA_self, ensureArr_vlist]
                exact padSet_pad_slot _ _ _ hi1 hi2 hiiN x1
              have hs1 : (padTo (ensureArr (lookupA n1 (insertA n1 (Val.vlist
                    ((padTo (ensureArr (lookupA n1 m)) i2).set i2.toNat x2)) m))) i1)[i1.toNat]?
                  = (padTo (ensureArr (lookupA n1 m)) i1)[i1.toNat]? := by
                rw [lookupA_insertA_self, ensureArr_vlist]
                exact padSet_pad_slot _ _ _ hi2 hi1 (fun e => hiiN e.symm) x2
              rw [(hx2c _ hs2).2, (hx1c _ hs1).2, lookupA_insertA_self, lookupA_insertA_self,
                ensureArr_vlist, ensureArr_vlist, insertA_insertA, insertA_insertA,
                padSet_padSet_comm _ _ _ hi1 hi2 hiiN x1 x2]
            case pos =>
              subst hii
              have hcr : segsCompat r1 r2 = true := by simpa [segsCompat] using hc
              have hr1ne : r1 ≠ [] := by
                intro e; rw [e] at hcr; simp [segsCompat] at hcr
              have hr2ne : r2 ≠ [] := by
                intro e; rw [e] at hcr; cases r1 <;> simp [segsCompat] at hcr
              cases hsl : (padTo (ensureArr (lookupA n1 m)) i1)[i1.toNat]? with
              | none => simp [pathOK, hr1ne, hsl] at hokp
              | some slot =>
                cases slot with
                | vnull =>
                  have hokp2 : pathOK r1 [] = true := by simpa [pathOK, hr1ne, hsl] using hokp
                  have hokq2 : pathOK r2 [] = true := by simpa [pathOK, hr2ne, hsl] using hokq
                  obtain ⟨P1, hP1⟩ := putPathD_isSome v hw2p' (pathOK_nil hw2p')
                  obtain ⟨P2, hP2⟩ := putPathD_isSome w hw2q' (pathOK_nil hw2q')
                  have hE : putPathD r2 w P1 = putPathD r1 v P2 := by
                    have h := ih v w hcr hw2p' hw2q'
                      (pathOK_nil hw2p') (pathOK_nil hw2q')
                    rw [hP1, hP2] at h
                    simpa using h
                  have hL : putPathD ((n1, i1, true) :: r1) v m
                      = some (insertA n1 (Val.vlist ((padTo (ensureArr (lookupA n1 m)) i1).set
                          i1.toNat (Val.vmap P1))) m) := by
                    simp [putPathD, hr1ne, hi1, hsl, hP1]
                  have hR : putPathD ((n1, i1, true) :: r2) w m
                      = some (insertA n1 (Val.vlist ((padTo (ensureArr (lookupA n1 m)) i1).set
                          i1.toNat (Val.vmap P2))) m) := by
                    simp [putPathD, hr2ne, hi1, hsl, hP2]
                  rw [hL, hR]
                  show putPathD ((n1, i1, true) :: r2) w (insertA n1 (Val.vlist
                        ((padTo (ensureArr (lookupA n1 m)) i1).set i1.toNat (Val.vmap P1))) m)
                    = putPathD ((n1, i1, true) :: r1) v (insertA n1 (Val.vlist
                        ((padTo (ensureArr (lookupA n1 m)) i1).set i1.toNat (Val.vmap P2))) m)
                  have hpadP1 : padTo ((padTo (ensureArr (lookupA n1 m)) i1).set i1.toNat
                      (Val.vmap P1)) i1 = (padTo (ensureArr (lookupA n1 m)) i1).set i1.toNat
                      (Val.vmap P1) :=
                    padTo_of_le (by rw [padSet_length _ _ hi1]; omega)
                  have hpadP2 : padTo ((padTo (ensureArr (lookupA n1 m)) i1).set i1.toNat
                      (Val.vmap P2)) i1 = (padTo (ensureArr (lookupA n1 m)) i1).set i1.toNat
                      (Val.vmap P2) :=
                    padTo_of_le (by rw [padSet_length _ _ hi1]; omega)
                  have hslotP1 : ((padTo (ensureArr (lookupA n1 m)) i1).set i1.toNat
                      (Val.vmap P1))[i1.toNat]? = some (Val.vmap P1) :=
                    List.getElem?_set_self (padTo_toNat_lt _ _ hi1)
                  have hslotP2 : ((padTo (ensureArr (lookupA n1 m)) i1).set i1.toNat
                      (Val.vmap P2))[i1.toNat]? = some (Val.vmap P2) :=
                    List.getElem?_set_self (padTo_toNat_lt _ _ hi1)
                  have hQL : putPathD ((n1, i1, true) :: r2) w (insertA n1 (Val.vlist
                        ((padTo (ensureArr (lookupA n1 m)) i1).set i1.toNat (Val.vmap P1))) m)
                      = (putPathD r2 w P1).map (fun r => insertA n1 (Val.vlist
                          (((padTo (ensureArr (lookupA n1 m)) i1).set i1.toNat
                            (Val.vmap P1)).set i1.toNat (Val.vmap r)))
                          (insertA n1 (Val.vlist ((padTo (ensureArr (lookupA n1 m)) i1).set
                            i1.toNat (Val.vmap P1))) m)) := by
                    simp [putPathD, hr2ne, hi1, lookupA_insertA_self, ensureArr_vlist,
                      hpadP1, hslotP1]
                  have hQR : putPathD ((n1, i1, true) :: r1) v (insertA n1 (Val.vlist
                        ((padTo (ensureArr (lookupA n1 m)) i1).set i1.toNat (Val.vmap P2))) m)
                      = (putPathD r1 v P2).map (fun r => insertA n1 (Val.vlist
                          (((padTo (ensureArr (lookupA n1 m)) i1).set i1.toNat
                            (Val.vmap P2)).set i1.toNat (Val.vmap r)))
                          (insertA n1 (Val.vlist ((padTo (ensureArr (lookupA n1 m)) i1).set
                            i1.toNat (Val.vmap P2))) m)) := by
                    simp [putPathD, hr1ne, hi1, lookupA_insertA_self, ensureArr_vlist,
                      hpadP2, hslotP2]
                  rw [hQL, hQR, hE]
                  cases hQ : putPathD r1 v P2 with
                  | none => rfl
                  | some Q => simp [insertA_insertA, List.set_set]
                | vmap inner =>
                  have hokp2 : pathOK r1 inner = true := by simpa [pathOK, hr1ne, hsl] using hokp
                  have hokq2 : pathOK r2 inner = true := by simpa [pathOK, hr2ne, hsl] using hokq
                  obtain ⟨P1, hP1⟩ := putPathD_isSome v hw2p' hokp2
                  obtain ⟨P2, hP2⟩ := putPathD_isSome w hw2q' hokq2
                  have hE : putPathD r2 w P1 = putPathD r1 v P2 := by
                    have h := ih v w hcr hw2p' hw2q' hokp2 hokq2
                    rw [hP1, hP2] at h
                    simpa using h
                  have hL : putPathD ((n1, i1, true) :: r1) v m
                      = some (insertA n1 (Val.vlist ((padTo (ensureArr (lookupA n1 m)) i1).set
                          i1.toNat (Val.vmap P1))) m) := by
                    simp [putPathD, hr1ne, hi1, hsl, hP1]
                  have hR : putPathD ((n1, i1, true) :: r2) w m
                      = some (insertA n1 (Val.vlist ((padTo (ensureArr (lookupA n1 m)) i1).set
                          i1.toNat (Val.vmap P2))) m) := by
                    simp [putPathD, hr2ne, hi1, hsl, hP2]
                  rw [hL, hR]
                  show putPathD ((n1, i1, true) :: r2) w (insertA n1 (Val.vlist
                        ((padTo (ensureArr (lookupA n1 m)) i1).set i1.toNat (Val.vmap P1))) m)
                    = putPathD ((n1, i1, true) :: r1) v (insertA n1 (Val.vlist
                        ((padTo (ensureArr (lookupA n1 m)) i1).set i1.toNat (Val.vmap P2))) m)
                  have hpadP1 : padTo ((padTo (ensureArr (lookupA n1 m)) i1).set i1.toNat
                      (Val.vmap P1)) i1 = (padTo (ensureArr (lookupA n1 m)) i1).set i1.toNat
                      (Val.vmap P1) :=
                    padTo_of_le (by rw [padSet_length _ _ hi1]; omega)
                  have hpadP2 : padTo ((padTo (ensureArr (lookupA n1 m)) i1).set i1.toNat
                      (Val.vmap P2)) i1 = (padTo (ensureArr (lookupA n1 m)) i1).set i1.toNat
                      (Val.vmap P2) :=
                    padTo_of_le (by rw [padSet_length _ _ hi1]; omega)
                  have hslotP1 : ((padTo (ensureArr (lookupA n1 m)) i1).set i1.toNat
                      (Val.vmap P1))[i1.toNat]? = some (Val.vmap P1) :=
                    List.getElem?_set_self (padTo_toNat_lt _ _ hi1)
                  have hslotP2 : ((padTo (ensureArr (lookupA n1 m)) i1).set i1.toNat
                      (Val.vmap P2))[i1.toNat]? = some (Val.vmap P2) :=
                    List.getElem?_set_self (padTo_toNat_lt _ _ hi1)
                  have hQL : putPathD ((n1, i1, true) :: r2) w (insertA n1 (Val.vlist
                        ((padTo (ensureArr (lookupA n1 m)) i1).set i1.toNat (Val.vmap P1))) m)
                      = (putPathD r2 w P1).map (fun r => insertA n1 (Val.vlist
                          (((padTo (ensureArr (lookupA n1 m)) i1).set i1.toNat
                            (Val.vmap P1)).set i1.toNat (Val.vmap r)))
                          (insertA n1 (Val.vlist ((padTo (ensureArr (lookupA n1 m)) i1).set
                            i1.toNat (Val.vmap P1))) m)) := by
                    simp [putPathD, hr2ne, hi1, lookupA_insertA_self, ensureArr_vlist,
                      hpadP1, hslotP1]
                  have hQR : putPathD ((n1, i1, true) :: r1) v (insertA n1 (Val.vlist
                        ((padTo (ensureArr (lookupA n1 m)) i1).set i1.toNat (Val.vmap P2))) m)
                      = (putPathD r1 v P2).map (fun r => insertA n1 (Val.vlist
                          (((padTo (ensureArr (lookupA n1 m)) i1).set i1.toNat
                            (Val.vmap P2)).set i1.toNat (Val.vmap r)))
                          (insertA n1 (Val.vlist ((padTo (ensureArr (lookupA n1 m)) i1).set
                            i1.toNat (Val.vmap P2))) m)) := by
                    simp [putPathD, hr1ne, hi1, lookupA_insertA_self, ensureArr_vlist,
                      hpadP2, hslotP2]
                  rw [hQL, hQR, hE]
                  cases hQ : putPathD r1 v P2 with
                  | none => rfl
                  | some Q => simp [insertA_insertA, List.set_set]
                | vstr s => simp [pathOK, hr1ne, hsl] at hokp
                | vint n => simp [pathOK, hr1ne, hsl] at hokp
                | vbool b => simp [pathOK, hr1ne, hsl] at hokp
                | vlist xs => simp [pathOK, hr1ne, hsl] at hokp

theorem unflattenStep_eq (o : Option M) (e : Str × Val) :
    unflattenStep o e = o.bind (fun mm => putPathD (decodeKey e.1) e.2 mm) := by
  cases o with
  | none => rfl
  | some m => exact unflattenStep_some m e

theorem foldl_unflattenStep_perm : ∀ {l1 l2 : List (Str × Val)}, l1.Perm l2 →
    ∀ (s : Option M),
    (∀ e ∈ l1, segsWF (decodeKey e.1) = true) →
    List.Pairwise (fun e1 e2 => entriesCompat e1 e2 = true) l1 →
    stateOK s l1 →
    l1.foldl unflattenStep s = l2.foldl unflattenStep s := by
  intro l1 l2 hperm
  induction hperm with
  | nil => intro s _ _ _; rfl
  | cons x hp ih =>
    intro s hwf hcp hst
    simp only [List.foldl_cons]
    apply ih (unflattenStep s x)
    · exact fun e he => hwf e (List.mem_cons_of_mem _ he)
    · exact (List.pairwise_cons.mp hcp).2
    · intro m' hm' e he
      cases s with
      | none => exact absurd hm' (by simp [unflattenStep])
      | some m =>
        rw [unflattenStep_some] at hm'
        exact putPathD_preserve x.2 ((List.pairwise_cons.mp hcp).1 e he)
          (hwf x (List.mem_cons_self _ _)) (hwf e (List.mem_cons_of_mem _ he))
          (hst m rfl x (List.mem_cons_self _ _)) (hst m rfl e (List.mem_cons_of_mem _ he)) hm'
  | swap x y l =>
    intro s hwf hcp hst
    simp only [List.foldl_cons]
    have hxy : unflattenStep (unflattenStep s y) x = unflattenStep (unflattenStep s x) y := by
      cases s with
      | none => rfl
      | some m =>
        rw [unflattenStep_eq (unflattenStep (some m) y) x,
          unflattenStep_eq (unflattenStep (some m) x) y,
          unflattenStep_some, unflattenStep_some]
        exact putPathD_comm y.2 x.2
          ((List.pairwise_cons.mp hcp).1 x (List.mem_cons_self _ _))
          (hwf y (List.mem_cons_self _ _))
          (hwf x (List.mem_cons_of_mem _ (List.mem_cons_self _ _)))
          (hst m rfl y (List.mem_cons_self _ _))
          (hst m rfl x (List.mem_cons_of_mem _ (List.mem_cons_self _ _)))
    rw [hxy]
  | trans h12 h23 ih1 ih2 =>
    intro s hwf hcp hst
    rw [ih1 s hwf hcp hst]
    refine ih2 s (fun e he => hwf e (h12.symm.subset he)) ?_ ?_
    · refine (List.Perm.pairwise_iff ?_ h12).mp hcp
      intro a b hab
      show entriesCompat b a = true
      rw [show entriesCompat b a = segsCompat (decodeKey b.1) (decodeKey a.1) from rfl,
        segsCompat_symm]
      exact hab
    · intro m hm e he
      exact hst m hm e (h12.symm.subset he)

/-! ## The claims -/

/-- C1: Flattening the nested document `{"list":[{"a":1},{"a":2}]}` with an
empty prefix yields exactly the flat mapping
`{"list[0].a":1, "list[1].a":2}`, and unflattening that flat mapping (in
either iteration order of its two entries) reproduces the original nested
document. -/
theorem c1_array_round_trip :
    flatten [("list".toList,
        Val.vlist [Val.vmap [("a".toList, Val.vint 1)], Val.vmap [("a".toList, Val.vint 2)]])] [] []
      = [("list[0].a".toList, Val.vint 1), ("list[1].a".toList, Val.vint 2)]
    ∧ unflatten [("list[0].a".toList, Val.vint 1), ("list[1].a".toList, Val.vint 2)]
      = some [("list".toList,
          Val.vlist [Val.vmap [("a".toList, Val.vint 1)], Val.vmap [("a".toList, Val.vint 2)]])]
    ∧ unflatten [("list[1].a".toList, Val.vint 2), ("list[0].a".toList, Val.vint 1)]
      = some [("list".toList,
          Val.vlist [Val.vmap [("a".toList, Val.vint 1)], Val.vmap [("a".toList, Val.vint 2)]])] :=
  ⟨rfl, rfl, rfl⟩

/-- C9: An empty Mapping or empty List value produces no flat entries for
its prefix; flattening `{"arr": []}` yields the empty flat mapping (so no
key starting with `arr`), and the unflatten-then-flatten round trip cannot
reconstruct the empty array: unflattening the empty mapping gives the empty
document, not `{"arr": []}`. -/
theorem c9_empty_collections_are_lossy :
    (∀ (key : Str) (out : M), flattenVal (Val.vmap []) key out = out)
    ∧ (∀ (key : Str) (out : M), flattenVal (Val.vlist []) key out = out)
    ∧ flatten [("arr".toList, Val.vlist [])] [] [] = []
    ∧ unflatten (flatten [("arr".toList, Val.vlist [])] [] []) = some []
    ∧ unflatten (flatten [("arr".toList, Val.vlist [])] [] [])
        ≠ some [("arr".toList, Val.vlist [])] :=
  ⟨fun _ _ => rfl, fun _ _ => rfl, rfl, rfl,
    fun h => Bool.noConfusion (congrArg (keyPresent "arr".toList) h)⟩

/-- C4 (counterexample): the claim says the non-terminal indexed step
"succeeds and descends into a Mapping regardless of what the slot
previously held".  It does not: after `a[0] = "x"` fills slot 0 with a
scalar, processing `a[0].b` hits a non-nil non-Mapping slot and the failed
type assertion panics (modelled as `none`). -/
theorem c4_counterexample :
    unflatten [("a[0]".toList, Val.vstr "x".toList), ("a[0].b".toList, Val.vstr "y".toList)]
      = none := rfl

/-- C4 (amended): at a non-terminal indexed segment, the list fetched from
the current mapping (an absent key or a non-List value giving a fresh empty
List) is null-padded to length at least index+1; if the slot at the index
is null it is replaced by a fresh empty Mapping and the walk descends into
it; if the slot already holds a Mapping the walk descends into that
Mapping; but if the slot holds any non-null, non-Mapping value the step
does not succeed: the run panics (modelled `none`). -/
theorem c4_indexed_step_behavior (seg : Str) (rest : List Str) (value : Val) (m : M)
    (name : Str) (idx : Int) (arr : List Val)
    (hdec : parseArrayKey seg = (name, idx, true))
    (hidx : 0 ≤ idx)
    (hrest : rest ≠ [])
    (harr : arr = padTo (ensureArr (lookupA name m)) idx) :
    idx.toNat < arr.length
    ∧ (arr[idx.toNat]? = some Val.vnull →
        putPath (seg :: rest) value m
          = (putPath rest value []).map
              (fun inner => insertA name (Val.vlist (arr.set idx.toNat (Val.vmap inner))) m))
    ∧ (∀ inner, arr[idx.toNat]? = some (Val.vmap inner) →
        putPath (seg :: rest) value m
          = (putPath rest value inner).map
              (fun r => insertA name (Val.vlist (arr.set idx.toNat (Val.vmap r))) m))
    ∧ (∀ slot, arr[idx.toNat]? = some slot → slot ≠ Val.vnull →
        (∀ inner, slot ≠ Val.vmap inner) →
        putPath (seg :: rest) value m = none) := by
  subst harr
  refine ⟨padTo_toNat_lt _ _ hidx, ?_, ?_, ?_⟩
  · intro hslot
    simp [putPath, hdec, hidx, hrest, hslot]
  · intro inner hslot
    simp [putPath, hdec, hidx, hrest, hslot]
  · intro slot hslot hnn hnm
    cases slot with
    | vnull => exact absurd rfl hnn
    | vmap inner => exact absurd rfl (hnm inner)
    | vstr s => simp [putPath, hdec, hidx, hrest, hslot]
    | vint n => simp [putPath, hdec, hidx, hrest, hslot]
    | vbool b => simp [putPath, hdec, hidx, hrest, hslot]
    | vlist xs => simp [putPath, hdec, hidx, hrest, hslot]

/-- C4 (witness): the amended step at a concrete input: unflattening the
single path `a[0].b` creates the list, pads slot 0, initializes the slot
Mapping and descends. -/
theorem c4_indexed_step_behavior_witness :
    putPath ["a[0]".toList, "b".toList] (Val.vint 5) []
      = some [("a".toList, Val.vlist [Val.vmap [("b".toList, Val.vint 5)]])] :=
  ((c4_indexed_step_behavior "a[0]".toList ["b".toList] (Val.vint 5) [] "a".toList 0
      [Val.vnull] rfl (by decide) (by decide) rfl).2.1 rfl).trans rfl

/-- C2 (counterexample): on the `.env` output path the serializer does NOT
receive the unflattened document: for the flat input `{"a.b": 1}`,
`runReverse` hands `writeEnv` the raw flat mapping, which differs from the
unflattened document `{"a": {"b": 1}}` (the key `a.b` is present in one and
not the other). -/
theorem c2_counterexample :
    runReverse [("a.b".toList, Val.vint 1)] "o.env".toList
      ≠ (unflatten [("a.b".toList, Val.vint 1)]).map SerializerCall.envCall :=
  fun h => Bool.noConfusion (congrArg (callKeyPresent "a.b".toList) h)

/-- C2 (amended): in reverse mode the parsed flat mapping is passed through
the Unflattener only on the `.yaml`/`.yml` output path; on the `.env`
output path the serializer receives the raw flat mapping unchanged. -/
theorem c2_env_bypasses_unflatten (data nested : M) (p q r : Str)
    (hn : unflatten data = some nested)
    (hp : toLowerStr (extOf p) = ".env".toList)
    (hq : toLowerStr (extOf q) = ".yaml".toList)
    (hr : toLowerStr (extOf r) = ".yml".toList) :
    runReverse data p = some (.envCall data)
    ∧ runReverse data q = some (.yamlCall nested)
    ∧ runReverse data r = some (.yamlCall nested) := by
  refine ⟨?_, ?_, ?_⟩
  · simp [runReverse, hp]
  · simp [runReverse, hq, hn, show ¬ ".yaml".toList = ".env".toList by decide]
  · simp [runReverse, hr, hn, show ¬ ".yml".toList = ".env".toList by decide]

/-- C2 (witness): the amended dispatch at a concrete flat mapping. -/
theorem c2_env_bypasses_unflatten_witness :
    runReverse [("a".toList, Val.vint 1)] "o.env".toList
      = some (.envCall [("a".toList, Val.vint 1)])
    ∧ runReverse [("a".toList, Val.vint 1)] "o.yaml".toList
      = some (.yamlCall [("a".toList, Val.vint 1)])
    ∧ runReverse [("a".toList, Val.vint 1)] "o.yml".toList
      = some (.yamlCall [("a".toList, Val.vint 1)]) :=
  c2_env_bypasses_unflatten [("a".toList, Val.vint 1)] [("a".toList, Val.vint 1)]
    "o.env".toList "o.yaml".toList "o.yml".toList rfl rfl rfl rfl

/-- C8 (counterexample): a `.json` output path does not select a serializer
in reverse mode; it falls into the default branch and fails the run (the
default output name `output.json` itself fails). -/
theorem c8_counterexample : runReverse [] "output.json".toList = none := rfl

/-- C8 (amended): in reverse mode the extensions `.env`, `.yaml` and `.yml`
each select a serializer and succeed; `.json` and every other output
extension fail the run. -/
theorem c8_reverse_extension_dispatch (data nested : M) (path : Str)
    (hn : unflatten data = some nested)
    (hother : toLowerStr (extOf path) ∉ [".env".toList, ".yaml".toList, ".yml".toList]) :
    runReverse data "o.env".toList = some (.envCall data)
    ∧ runReverse data "o.yaml".toList = some (.yamlCall nested)
    ∧ runReverse data "o.yml".toList = some (.yamlCall nested)
    ∧ runReverse data "o.json".toList = none
    ∧ runReverse data path = none := by
  have h1 : ¬ toLowerStr (extOf path) = ".env".toList := fun h => hother (by simp [h])
  have h2 : ¬ (toLowerStr (extOf path) = ".yaml".toList
      ∨ toLowerStr (extOf path) = ".yml".toList) := by
    rintro (h | h) <;> exact hother (by simp [h])
  refine ⟨rfl, ?_, ?_, rfl, ?_⟩
  · rw [show runReverse data "o.yaml".toList
        = (unflatten data).map SerializerCall.yamlCall from rfl, hn]
    rfl
  · rw [show runReverse data "o.yml".toList
        = (unflatten data).map SerializerCall.yamlCall from rfl, hn]
    rfl
  · show (if toLowerStr (extOf path) = ".env".toList then some (SerializerCall.envCall data)
      else if toLowerStr (extOf path) = ".yaml".toList ∨ toLowerStr (extOf path) = ".yml".toList
        then (unflatten data).map SerializerCall.yamlCall
      else none) = none
    rw [if_neg h1, if_neg h2]

/-- C8 (witness): the amended dispatch at concrete inputs, including the
failing default output path `output.json`. -/
theorem c8_reverse_extension_dispatch_witness :
    runReverse [("a".toList, Val.vint 1)] "o.env".toList
      = some (.envCall [("a".toList, Val.vint 1)])
    ∧ runReverse [("a".toList, Val.vint 1)] "o.yaml".toList
      = some (.yamlCall [("a".toList, Val.vint 1)])
    ∧ runReverse [("a".toList, Val.vint 1)] "o.yml".toList
      = some (.yamlCall [("a".toList, Val.vint 1)])
    ∧ runReverse [("a".toList, Val.vint 1)] "o.json".toList = none
    ∧ runReverse [("a".toList, Val.vint 1)] "output.json".toList = none :=
  c8_reverse_extension_dispatch [("a".toList, Val.vint 1)] [("a".toList, Val.vint 1)]
    "output.json".toList rfl (by decide)

/-- C10: the `.env` parser produces an entry only for lines containing an
`=` separator; a non-blank, non-comment line with no `=` is silently
skipped, leaving the result mapping unchanged. -/
theorem c10_env_line_without_equals_skipped (result : M) (rawLine : Str)
    (h1 : trimSpace rawLine ≠ [])
    (h2 : (trimSpace rawLine).head? ≠ some '#')
    (h3 : '=' ∉ rawLine) :
    parseEnvLine result rawLine = result := by
  have h4 : '=' ∉ trimSpace rawLine := fun hm => h3 (mem_of_mem_trimSpace hm)
  simp only [parseEnvLine]
  rw [if_neg h1, if_neg (by simpa using h2), splitEq_eq_none h4]

/-- C10 (witness): the concrete malformed line `INVALID LINE` is skipped. -/
theorem c10_env_line_without_equals_skipped_witness :
    trimSpace "INVALID LINE".toList ≠ []
    ∧ (trimSpace "INVALID LINE".toList).head? ≠ some '#'
    ∧ '=' ∉ "INVALID LINE".toList
    ∧ parseEnvLine [("A".toList, Val.vstr "q".toList)] "INVALID LINE".toList
        = [("A".toList, Val.vstr "q".toList)] :=
  ⟨by decide, by decide, by decide,
    c10_env_line_without_equals_skipped [("A".toList, Val.vstr "q".toList)]
      "INVALID LINE".toList (by decide) (by decide) (by decide)⟩

/-- C7: merging iterates the input mappings in the given order, writing
every key and overwriting existing bindings, so each key ends up with the
value from the last input mapping containing it; the concrete example
merges to `{"k":"v2"}`.  (The model is a total function: no error is
possible.) -/
theorem c7_merge_last_input_wins (ms : List M) (k : Str)
    (hnd : ∀ m ∈ ms, (m.map Prod.fst).Nodup) :
    lookupA k (mergeParsed ms) = lastLook ms k
    ∧ mergeParsed [[("k".toList, Val.vstr "v1".toList)], [("k".toList, Val.vstr "v2".toList)]]
        = [("k".toList, Val.vstr "v2".toList)] := by
  refine ⟨?_, rfl⟩
  have h := lookupA_merge_loop k ms [] hnd
  rw [show mergeParsed ms = ms.foldl (fun flat parsed => foldIns parsed flat) [] from rfl, h]
  cases lastLook ms k <;> rfl

/-- C7 (witness): the merge contract at the concrete two-mapping input. -/
theorem c7_merge_last_input_wins_witness :
    lookupA "k".toList
        (mergeParsed [[("k".toList, Val.vstr "v1".toList)], [("k".toList, Val.vstr "v2".toList)]])
      = lastLook [[("k".toList, Val.vstr "v1".toList)], [("k".toList, Val.vstr "v2".toList)]]
          "k".toList
    ∧ mergeParsed [[("k".toList, Val.vstr "v1".toList)], [("k".toList, Val.vstr "v2".toList)]]
        = [("k".toList, Val.vstr "v2".toList)] :=
  c7_merge_last_input_wins
    [[("k".toList, Val.vstr "v1".toList)], [("k".toList, Val.vstr "v2".toList)]]
    "k".toList (by decide)

/-- C6 (counterexample): `parseArrayKey` accepts a NEGATIVE bracketed index:
`a[-1]` returns `("a", -1, true)` rather than falling back to treating the
whole segment as a plain name, contradicting the claim that array semantics
apply exactly for non-negative integer indices. -/
theorem c6_counterexample :
    parseArrayKey "a[-1]".toList = ("a".toList, -1, true)
    ∧ parseArrayKey "a[-1]".toList ≠ ("a[-1]".toList, -1, false)
    ∧ (-1 : Int) < 0 := by decide

/-- C6 (amended): `parseArrayKey` returns `(name, index, true)` exactly when
the segment decomposes as `name ++ "[" ++ idxStr ++ "]"` with `idxStr` free
of `[` (so the shown bracket is the trailing one) and `idxStr` parsing as a
signed 64-bit integer under `strconv.Atoi` — the index may be negative; in
every other case (including a non-integer index as in `item[x]`) it returns
the whole segment unchanged as a plain name with no array semantics. -/
theorem c6_decode_segment_characterization (s : Str) :
    (∃ name idxStr idx, s = name ++ '[' :: (idxStr ++ [']'])
        ∧ '[' ∉ idxStr ∧ atoi idxStr = some idx
        ∧ parseArrayKey s = (name, idx, true))
    ∨ (parseArrayKey s = (s, -1, false)
        ∧ ¬ ∃ name idxStr idx, s = name ++ '[' :: (idxStr ++ [']'])
            ∧ '[' ∉ idxStr ∧ atoi idxStr = some idx) := by
  by_cases hlast : s.getLast? = some ']'
  case neg =>
    right
    refine ⟨by simp [parseArrayKey, hlast], ?_⟩
    rintro ⟨name, idxStr, idx, hs, -, -⟩
    apply hlast
    rw [hs, show name ++ '[' :: (idxStr ++ [']']) = (name ++ '[' :: idxStr) ++ [']'] by simp]
    exact List.getLast?_concat _
  case pos =>
    cases hb : lastIdxOf '[' s with
    | none =>
      right
      refine ⟨by simp [parseArrayKey, hlast, hb], ?_⟩
      rintro ⟨name, idxStr, idx, hs, -, -⟩
      exact (lastIdxOf_eq_none_iff.mp hb) (by rw [hs]; simp)
    | some b =>
      obtain ⟨hblen, hbget, hbafter⟩ := lastIdxOf_spec hb
      have hdropne : s.drop (b + 1) ≠ [] := by
        intro he
        rw [List.drop_eq_nil_iff] at he
        have hb1 : b = s.length - 1 := by omega
        rw [List.getLast?_eq_getElem?, ← hb1, hbget] at hlast
        exact absurd (Option.some.inj hlast) (by decide)
      have hgl : (s.drop (b + 1)).getLast? = some ']' := by
        have h1 : s.take (b + 1) ++ s.drop (b + 1) = s := List.take_append_drop _ _
        have h2 := @List.getLast?_append Char (s.take (b + 1)) (s.drop (b + 1))
        rw [h1, hlast] at h2
        cases hgl2 : (s.drop (b + 1)).getLast? with
        | none => exact absurd (List.getLast?_eq_none_iff.mp hgl2) hdropne
        | some ch =>
          rw [hgl2] at h2
          simp only [Option.or] at h2
          exact h2.symm
      have hsplit : (s.drop (b + 1)).dropLast ++ [']'] = s.drop (b + 1) :=
        List.dropLast_append_getLast? _ hgl
      have hnotmem : '[' ∉ (s.drop (b + 1)).dropLast :=
        fun hm => hbafter ((List.dropLast_sublist _).mem hm)
      have hdecomp : s = s.take b ++ '[' :: ((s.drop (b + 1)).dropLast ++ [']']) := by
        rw [hsplit]
        exact eq_take_cons_drop hbget
      cases hato : atoi ((s.drop (b + 1)).dropLast) with
      | some idx =>
        left
        exact ⟨s.take b, (s.drop (b + 1)).dropLast, idx, hdecomp, hnotmem, hato,
          by simp [parseArrayKey, hlast, hb, hato]⟩
      | none =>
        right
        refine ⟨by simp [parseArrayKey, hlast, hb, hato], ?_⟩
        rintro ⟨name, idxStr2, idx2, hs2, hnm2, hat2⟩
        have hbb : lastIdxOf '[' s = some name.length := by
          rw [hs2]
          exact lastIdxOf_append_cons name (idxStr2 ++ [']'])
            (by simp [List.mem_append, hnm2])
        rw [hb] at hbb
        have hbeq : b = name.length := Option.some.inj hbb
        have hdrop : s.drop (b + 1) = idxStr2 ++ [']'] := by
          rw [hs2, show name ++ '[' :: (idxStr2 ++ [']'])
              = (name ++ ['[']) ++ (idxStr2 ++ [']']) by simp,
            show b + 1 = (name ++ ['[']).length by simp [hbeq]]
          exact List.drop_left _ _
        rw [hdrop, List.dropLast_concat, hat2] at hato
        exact Option.noConfusion hato

/-- C5 (counterexample): the claim's proviso only rules out Mapping-vs-List
disagreements, but `unflatten` is also order-dependent when one entry
stores a scalar at a prefix another entry descends through.  The mapping
`{"a": 1, "a.b": 2}` contains no array segment at all (so no two entries
can disagree about Mapping vs List), yet the two iteration orders produce
different documents: `{"a": 1, "b": 2}` versus `{"a": 1}`. -/
theorem c5_counterexample :
    (∀ e ∈ ([("a".toList, Val.vint 1), ("a.b".toList, Val.vint 2)] : List (Str × Val)),
        ∀ s ∈ decodeKey e.1, s.2.2 = false)
    ∧ ([("a".toList, Val.vint 1), ("a.b".toList, Val.vint 2)] : List (Str × Val)).Perm
        [("a.b".toList, Val.vint 2), ("a".toList, Val.vint 1)]
    ∧ unflatten [("a".toList, Val.vint 1), ("a.b".toList, Val.vint 2)]
        ≠ unflatten [("a.b".toList, Val.vint 2), ("a".toList, Val.vint 1)] :=
  ⟨by decide, List.Perm.swap _ _ _,
    fun h => Bool.noConfusion (congrArg (keyPresent "b".toList) h)⟩

/-- C5 (amended): `unflatten` produces the same nested document under every
iteration order of the mapping's entries provided the decoded key paths are
pairwise structurally compatible: any two of them must part at a segment
where the names differ or at two array segments of the same name with
different (non-negative) indices — this rules out not only the original
proviso's Mapping-vs-List disagreement at a shared prefix, but also a
terminal (scalar) write at a prefix of another entry's path, duplicate
decoded paths, and negative indices, each of which breaks
order-independence or panics. -/
theorem c5_unflatten_order_independent (l1 l2 : List (Str × Val))
    (hperm : l1.Perm l2)
    (hwf : ∀ e ∈ l1, segsWF (decodeKey e.1) = true)
    (hcompat : List.Pairwise (fun e1 e2 => entriesCompat e1 e2 = true) l1) :
    unflatten l1 = unflatten l2 := by
  show l1.foldl unflattenStep (some []) = l2.foldl unflattenStep (some [])
  apply foldl_unflattenStep_perm hperm (some []) hwf hcompat
  intro m hm e he
  obtain rfl : ([] : M) = m := Option.some.inj hm
  exact pathOK_nil (hwf e he)

/-- C5 (witness): two compatible entries (`a[0].x` and `a[0].y`) unflatten
to the same document in both orders. -/
theorem c5_unflatten_order_independent_witness :
    unflatten [("a[0].x".toList, Val.vint 1), ("a[0].y".toList, Val.vint 2)]
      = unflatten [("a[0].y".toList, Val.vint 2), ("a[0].x".toList, Val.vint 1)] :=
  c5_unflatten_order_independent
    [("a[0].x".toList, Val.vint 1), ("a[0].y".toList, Val.vint 2)]
    [("a[0].y".toList, Val.vint 2), ("a[0].x".toList, Val.vint 1)]
    (List.Perm.swap _ _ _) (by decide) (by decide)

/-- C3: for a flat mapping whose keys are non-array and non-nested (no dot,
no bracketed integer-index suffix) and whose values are scalars,
`flatten (unflatten m) = m`: unflattening (in any iteration order of the
mapping, which is the sorted association list `m`) yields the mapping back
as a one-level document, and flattening that document restores `m`. -/
theorem c3_scalar_round_trip (m l : List (Str × Val))
    (hperm : l.Perm m)
    (hsorted : List.Pairwise (fun a b : Str × Val => strLt a.1 b.1 = true) m)
    (hkeys : ∀ e ∈ m, '.' ∉ e.1 ∧ (parseArrayKey e.1).2.2 = false)
    (hscalar : ∀ e ∈ m, isScalar e.2 = true) :
    (unflatten l).map (fun n => flatten n [] []) = some m := by
  have hkl : ∀ e ∈ l, '.' ∉ e.1 ∧ (parseArrayKey e.1).2.2 = false :=
    fun e he => hkeys e (hperm.subset he)
  have hndm : (m.map Prod.fst).Nodup := by
    refine List.Pairwise.map Prod.fst ?_ hsorted
    intro a b hab he
    rw [he, strLt_irrefl] at hab
    cases hab
  have hnd : (l.map Prod.fst).Nodup := ((hperm.map Prod.fst).nodup_iff).mpr hndm
  have h1 : l.foldl unflattenStep (some ([] : M)) = some (foldIns l []) :=
    unflatten_scalar_entries l [] hkl
  have h2 : foldIns l [] = foldIns m [] := foldIns_perm hperm hnd []
  have h3 : foldIns m [] = m := by
    have h := foldIns_sorted m [] (by intro a ha b hb; cases ha) hsorted
    simpa using h
  have h4 : flatten m [] [] = m := by
    rw [flatten_scalar_entries m [] hscalar, h3]
  show (l.foldl unflattenStep (some [])).map (fun n => flatten n [] []) = some m
  rw [h1]
  simp only [Option.map_some']
  rw [h2, h3, h4]

/-- C3 (witness): the scalar mapping `{"a":"1","b":"2"}`, unflattened from
the iteration order `b, a` and flattened back, is itself. -/
theorem c3_scalar_round_trip_witness :
    (unflatten [("b".toList, Val.vstr "2".toList), ("a".toList, Val.vstr "1".toList)]).map
        (fun n => flatten n [] [])
      = some [("a".toList, Val.vstr "1".toList), ("b".toList, Val.vstr "2".toList)] :=
  c3_scalar_round_trip
    [("a".toList, Val.vstr "1".toList), ("b".toList, Val.vstr "2".toList)]
    [("b".toList, Val.vstr "2".toList), ("a".toList, Val.vstr "1".toList)]
    (List.Perm.swap _ _ _) (by decide) (by decide) (by decide)

end Vaultboy
